import Mathlib

/-!
# Verification of the mo-dump serialization engine

Shallow embedding of `cmd/mo-dump/main.go`: the value encoder
(`convertValue`, `escapeString`), the INSERT batch writer (`showInsert`),
the view-dependency reordering (`dumpData`'s two-pointer partition and
`adjustViewOrder`), and the input validation performed by `main` before
any dump output is produced.

Raw column values are modelled as byte lists (`List Nat`, each entry a
byte).  Go string indexing (`s[i]`) is byte indexing, and
`strings.Replace` works on bytes, so the byte-level model is exact for
those operations.  Type tags and table names are ASCII, for which the
`String`-level model coincides with the byte-level one.
-/

/-- The UTF-8 bytes of an ASCII string literal (all fixed tokens of the
dump format are ASCII, where code points and bytes coincide). -/
def strBytes (s : String) : List Nat := s.toList.map Char.toNat

/-- `strings.ToLower` restricted to ASCII letters.  All type tags
dispatched on by `convertValue` are ASCII, where Go's Unicode lowering
agrees with this map. -/
def toLowerAscii (s : String) : String :=
  String.mk (s.toList.map fun c =>
    if 65 ≤ c.toNat ∧ c.toNat ≤ 90 then Char.ofNat (c.toNat + 32) else c)

/-- `strings.Replace(s, old, new, -1)` specialised to a one-byte pattern
`b` replaced by the byte list `r`, as used by `convertValue` for
backslash and single-quote escaping. -/
def replaceByte (b : Nat) (r : List Nat) : List Nat → List Nat
  | [] => []
  | c :: cs => (if c = b then r else [c]) ++ replaceByte b r cs

/-- The escaping applied by `convertValue`'s string branch: first every
backslash (92) is doubled, then every single quote (39) receives a
preceding backslash. -/
def escapeSqlBytes (s : List Nat) : List Nat :=
  replaceByte 39 [92, 39] (replaceByte 92 [92, 92] s)

/-- `convertValue`'s default branch: the escaped bytes wrapped in single
quotes. -/
def quoteSql (s : List Nat) : List Nat := 39 :: (escapeSqlBytes s ++ [39])

/-- The type tags of `convertValue`'s pass-through switch case. -/
def plainTypes : List String :=
  ["int", "tinyint", "smallint", "bigint", "unsigned bigint",
   "unsigned int", "unsigned tinyint", "unsigned smallint", "double",
   "bool", "boolean"]

/-- `convertValue`'s `bit` branch: a `_binary '...'` literal in which each
zero byte is rendered as backslash-zero and all other bytes pass through. -/
def bitBody : List Nat → List Nat
  | [] => []
  | b :: bs => (if b = 0 then [92, 48] else [b]) ++ bitBody bs

/-- `convertValue`'s `bit` branch result. -/
def bitLiteral (ret : List Nat) : List Nat :=
  strBytes "_binary " ++ [39] ++ bitBody ret ++ [39]

/-- `convertValue` from the source.  `none` input models a SQL NULL
(`sql.RawBytes` nil); `none` output models the out-of-bounds index panic
of the `float` branch (`retStr[0]` on an empty value, `retStr[1]` on the
one-byte value `-`); every other path returns a literal. -/
def convertValue (v : Option (List Nat)) (typ : String) : Option (List Nat) :=
  match v with
  | none => some (strBytes "NULL")
  | some ret =>
    let t := toLowerAscii typ
    if t = "" then
      if ret = strBytes "true" ∨ ret = strBytes "false" then some ret
      else some (quoteSql ret)
    else if t = "varchar" ∧ (ret = strBytes "true" ∨ ret = strBytes "false") then
      some ret
    else if t = "float" then
      match ret with
      | [] => none
      | b :: rest =>
        if 48 ≤ b ∧ b ≤ 57 then some ret
        else if b = 45 then
          match rest with
          | [] => none
          | b2 :: _ =>
            if 48 ≤ b2 ∧ b2 ≤ 57 then some ret
            else some (39 :: (ret ++ [39]))
        else some (39 :: (ret ++ [39]))
    else if t ∈ plainTypes then some ret
    else if t = "vecf32" ∨ t = "vecf64" then some ret
    else if t = "bit" then some (bitLiteral ret)
    else some (quoteSql ret)

/-- The raw text of a float value "starts with a digit, or with a minus
sign followed by a digit" (byte-level, as tested by the source). -/
def startsNumeric : List Nat → Bool
  | [] => false
  | b :: rest =>
    if 48 ≤ b ∧ b ≤ 57 then true
    else if b = 45 then
      match rest with
      | [] => false
      | b2 :: _ => decide (48 ≤ b2 ∧ b2 ≤ 57)
    else false

/-- Doubling of backslashes as performed by `escapeString`'s rune loop:
an extra backslash is written before each backslash character. -/
def doubleBackslashes : List Char → List Char
  | [] => []
  | c :: cs =>
    if c = '\\' then '\\' :: '\\' :: doubleBackslashes cs
    else c :: doubleBackslashes cs

/-- `escapeString` from the source: the NULL sentinel is returned
unchanged, every other field has each backslash doubled.  The rune loop
is modelled on the character sequence (exact for valid UTF-8 input; see
`goEscapeStringBytes` below for the byte-level behaviour). -/
def escapeString (s : String) : String :=
  if s = "\\N" then s else String.mk (doubleBackslashes s.toList)

/- ### Decoders reversing the escape rules (stated from the claim's words) -/

/-- Reversal of the SQL string-literal escape rule, per the claim: a
backslash followed by any byte decodes to that byte; a trailing lone
backslash is malformed. -/
def unescapeSqlBytes : List Nat → Option (List Nat)
  | [] => some []
  | c :: rest =>
    if c = 92 then
      match rest with
      | [] => none
      | b :: rest2 => (unescapeSqlBytes rest2).map (b :: ·)
    else (unescapeSqlBytes rest).map (c :: ·)

/-- Stripping the enclosing single quotes of a SQL string literal, per
the claim. -/
def stripQuotes (l : List Nat) : Option (List Nat) :=
  match l with
  | 39 :: rest =>
    if rest ≠ [] ∧ rest.getLast? = some 39 then some rest.dropLast else none
  | _ => none

/-- Reversal of the CSV backslash-doubling rule, per the claim: a doubled
backslash decodes to one backslash; anything else passes through. -/
def undoubleBackslashes : List Char → List Char
  | [] => []
  | c :: rest =>
    if c = '\\' then
      match rest with
      | [] => [c]
      | d :: rest2 =>
        if d = '\\' then '\\' :: undoubleBackslashes rest2
        else c :: d :: undoubleBackslashes rest2
    else c :: undoubleBackslashes rest

/-- The byte-level reversal of backslash-doubling (byte 92). -/
def undoubleBytes : List Nat → List Nat
  | [] => []
  | c :: rest =>
    if c = 92 then
      match rest with
      | [] => [c]
      | d :: rest2 =>
        if d = 92 then 92 :: undoubleBytes rest2
        else c :: d :: undoubleBytes rest2
    else c :: undoubleBytes rest

/- ### Byte-level model of the rune loop in `escapeString` -/

/-- Go's `utf8.DecodeRune` on a byte sequence: the decoded code point
and the number of bytes consumed.  Malformed, overlong, surrogate or
truncated encodings yield the replacement character U+FFFD with size 1
(`utf8.RuneError`), exactly as in the Go standard library's `range` over
a string. -/
def utf8DecodeRune : List Nat → Nat × Nat
  | [] => (0xFFFD, 0)
  | b0 :: rest =>
    if b0 < 0x80 then (b0, 1)
    else if b0 < 0xC2 then (0xFFFD, 1)
    else if b0 ≤ 0xDF then
      match rest with
      | b1 :: _ =>
        if 0x80 ≤ b1 ∧ b1 ≤ 0xBF then ((b0 - 0xC0) * 64 + (b1 - 0x80), 2)
        else (0xFFFD, 1)
      | [] => (0xFFFD, 1)
    else if b0 ≤ 0xEF then
      match rest with
      | b1 :: b2 :: _ =>
        if (if b0 = 0xE0 then 0xA0 else 0x80) ≤ b1 ∧
            b1 ≤ (if b0 = 0xED then 0x9F else 0xBF) ∧
            0x80 ≤ b2 ∧ b2 ≤ 0xBF then
          ((b0 - 0xE0) * 4096 + (b1 - 0x80) * 64 + (b2 - 0x80), 3)
        else (0xFFFD, 1)
      | _ => (0xFFFD, 1)
    else if b0 ≤ 0xF4 then
      match rest with
      | b1 :: b2 :: b3 :: _ =>
        if (if b0 = 0xF0 then 0x90 else 0x80) ≤ b1 ∧
            b1 ≤ (if b0 = 0xF4 then 0x8F else 0xBF) ∧
            0x80 ≤ b2 ∧ b2 ≤ 0xBF ∧ 0x80 ≤ b3 ∧ b3 ≤ 0xBF then
          ((b0 - 0xF0) * 262144 + (b1 - 0x80) * 4096 + (b2 - 0x80) * 64 +
            (b3 - 0x80), 4)
        else (0xFFFD, 1)
      | _ => (0xFFFD, 1)
    else (0xFFFD, 1)

/-- UTF-8 encoding of one code point, as written by
`strings.Builder.WriteRune` (surrogates and out-of-range values encode
the replacement character). -/
def utf8EncodeRune (r₀ : Nat) : List Nat :=
  let r := if (0xD800 ≤ r₀ ∧ r₀ ≤ 0xDFFF) ∨ 0x10FFFF < r₀ then 0xFFFD else r₀
  if r < 0x80 then [r]
  else if r < 0x800 then [0xC0 + r / 64, 0x80 + r % 64]
  else if r < 0x10000 then
    [0xE0 + r / 4096, 0x80 + (r / 64) % 64, 0x80 + r % 64]
  else
    [0xF0 + r / 262144, 0x80 + (r / 4096) % 64, 0x80 + (r / 64) % 64,
      0x80 + r % 64]

/-- The rune loop of `escapeString` at the byte level, fuelled by the
input length (each step consumes at least one byte, so the fuel is never
exhausted on the start value `l.length`): decode one rune, write an
extra backslash before a backslash rune, re-encode the rune, continue. -/
def goEscapeBytesF : Nat → List Nat → List Nat
  | 0, _ => []
  | _, [] => []
  | fuel + 1, l@(_ :: _) =>
    let p := utf8DecodeRune l
    (if p.1 = 92 then [92] else []) ++ utf8EncodeRune p.1 ++
      goEscapeBytesF fuel (l.drop (max p.2 1))

/-- `escapeString` at the byte level: the NULL sentinel (bytes 92, 78)
is returned unchanged, every other byte string goes through the rune
loop. -/
def goEscapeStringBytes (s : List Nat) : List Nat :=
  if s = [92, 78] then s else goEscapeBytesF s.length s

/- ### Round-trip lemmas for the escape rules -/

/-- `replaceByte` distributes over concatenation. -/
theorem replaceByte_append (b : Nat) (r l₁ l₂ : List Nat) :
    replaceByte b r (l₁ ++ l₂) = replaceByte b r l₁ ++ replaceByte b r l₂ := by
  induction l₁ with
  | nil => rfl
  | cons c cs ih => simp [replaceByte, ih]

/-- One step of the combined backslash-then-quote escaping. -/
theorem escapeSqlBytes_cons (c : Nat) (s : List Nat) :
    escapeSqlBytes (c :: s) =
      (if c = 92 then [92, 92] else if c = 39 then [92, 39] else [c]) ++
        escapeSqlBytes s := by
  by_cases h92 : c = 92
  · subst h92
    simp [escapeSqlBytes, replaceByte, replaceByte_append]
  · by_cases h39 : c = 39
    · subst h39
      simp [escapeSqlBytes, replaceByte, replaceByte_append]
    · simp [escapeSqlBytes, replaceByte, replaceByte_append, h92, h39]

/-- Unfolding of the SQL unescape on a non-backslash head byte. -/
theorem unescapeSql_cons_ne (c : Nat) (h : c ≠ 92) (l : List Nat) :
    unescapeSqlBytes (c :: l) = (unescapeSqlBytes l).map (c :: ·) := by
  cases l <;> simp [unescapeSqlBytes, h]

/-- Unfolding of the SQL unescape on an escape pair. -/
theorem unescapeSql_esc (b : Nat) (l : List Nat) :
    unescapeSqlBytes (92 :: b :: l) = (unescapeSqlBytes l).map (b :: ·) := by
  simp [unescapeSqlBytes]

/-- Undoing the SQL escape rule recovers the original bytes. -/
theorem unescape_escapeSql (s : List Nat) :
    unescapeSqlBytes (escapeSqlBytes s) = some s := by
  induction s with
  | nil => rfl
  | cons c s ih =>
    rw [escapeSqlBytes_cons]
    by_cases h92 : c = 92
    · subst h92; simp [unescapeSql_esc, ih]
    · by_cases h39 : c = 39
      · subst h39; simp [unescapeSql_esc, ih]
      · simp [h92, h39, unescapeSql_cons_ne c h92, ih]

/-- Unfolding of the backslash-undoubling on a non-backslash head. -/
theorem undouble_cons_ne (c : Char) (h : c ≠ '\\') (l : List Char) :
    undoubleBackslashes (c :: l) = c :: undoubleBackslashes l := by
  cases l <;> simp [undoubleBackslashes, h]

/-- Undoing the CSV backslash-doubling recovers the original characters. -/
theorem undouble_double (l : List Char) :
    undoubleBackslashes (doubleBackslashes l) = l := by
  induction l with
  | nil => rfl
  | cons c rest ih =>
    by_cases hc : c = '\\'
    · subst hc; simp [doubleBackslashes, undoubleBackslashes, ih]
    · simp [doubleBackslashes, hc, undouble_cons_ne c hc, ih]

/-- `convertValue` on a `text`-typed value takes the default string
branch. -/
theorem convertValue_text_eq (s : List Nat) :
    convertValue (some s) "text" = some (quoteSql s) := by
  have ht : toLowerAscii "text" = "text" := by decide
  match s with
  | [] =>
    simp only [convertValue, ht]
    rw [if_neg (by decide : ¬("text" : String) = "")]
    rw [if_neg (fun hc => absurd hc.1 (by decide : ¬("text" : String) = "varchar"))]
    rw [if_neg (by decide : ¬("text" : String) = "float")]
    rw [if_neg (by decide : ¬("text" : String) ∈ plainTypes)]
    rw [if_neg (by decide : ¬(("text" : String) = "vecf32" ∨ ("text" : String) = "vecf64"))]
    rw [if_neg (by decide : ¬("text" : String) = "bit")]
  | b :: rest =>
    simp only [convertValue, ht]
    rw [if_neg (by decide : ¬("text" : String) = "")]
    rw [if_neg (fun hc => absurd hc.1 (by decide : ¬("text" : String) = "varchar"))]
    rw [if_neg (by decide : ¬("text" : String) = "float")]
    rw [if_neg (by decide : ¬("text" : String) ∈ plainTypes)]
    rw [if_neg (by decide : ¬(("text" : String) = "vecf32" ∨ ("text" : String) = "vecf64"))]
    rw [if_neg (by decide : ¬("text" : String) = "bit")]

/-- **C4 (amended)** — The SQL string literal produced by `convertValue`'s
string branch decodes back to the original bytes for *every* raw byte
string (including backslashes, quotes and NUL bytes): strip the quotes,
undo the escaping.  The CSV field produced by `escapeString` decodes
back to the original field under backslash-undoubling for every
character sequence, i.e. for every raw byte string that is valid UTF-8;
this includes the NULL sentinel itself.  (For raw bytes that are not
valid UTF-8 the CSV half fails, because the rune loop of `escapeString`
replaces malformed bytes by U+FFFD — see
`goEscapeString_not_reversible`.) -/
theorem escape_roundtrip (s : List Nat) (t : String) :
    convertValue (some s) "text" = some (quoteSql s) ∧
      (stripQuotes (quoteSql s)).bind unescapeSqlBytes = some s ∧
      String.mk (undoubleBackslashes (escapeString t).toList) = t := by
  refine ⟨convertValue_text_eq s, ?_, ?_⟩
  · have hstrip : stripQuotes (quoteSql s) = some (escapeSqlBytes s) := by
      simp [stripQuotes, quoteSql, List.dropLast_concat]
    rw [hstrip]
    exact unescape_escapeSql s
  · by_cases h : t = "\\N"
    · subst h; decide
    · rw [escapeString, if_neg h,
        show (String.mk (doubleBackslashes t.toList)).toList =
          doubleBackslashes t.toList from rfl,
        undouble_double]
      rfl

/-- **C4 (counterexample)** — The claim as stated fails for the CSV
field: the raw one-byte string 0xFF (not valid UTF-8) is turned by
`escapeString`'s rune loop into the three UTF-8 bytes of the replacement
character U+FFFD, so undoing the backslash-doubling does not recover the
original byte. -/
theorem goEscapeString_not_reversible :
    goEscapeStringBytes [255] = [239, 191, 189] ∧
      undoubleBytes (goEscapeStringBytes [255]) ≠ [255] := by decide

/- ### The INSERT batch writer (`showInsert`) -/

/-- A column as captured by `genOutput`: name and database type name
(the source's field `Type`, renamed because `Type` is a Lean keyword). -/
structure Column where
  Name : String
  Typ : String
  deriving Repr, DecidableEq

/-- One upper-case hexadecimal digit. -/
def hexDigit (n : Nat) : Nat := if n < 10 then 48 + n else 55 + n

/-- `fmt.Sprintf` with the upper-case hexadecimal verb on a byte slice:
two hex digits per byte. -/
def hexBytes : List Nat → List Nat
  | [] => []
  | b :: bs => hexDigit (b / 16) :: hexDigit (b % 16) :: hexBytes bs

/-- Modelled from the spec: the binary-literal prefix written before the
upper-case hexadecimal encoding of a non-empty blob value.  The constant
`blobPrefix` is declared in a repository file not present under `src/`;
its exact bytes do not affect any claim settled here. -/
def blobPrefix : List Nat := strBytes "0x"

/-- The encoding of one column value inside `showInsert`'s row loop:
`blob`-typed columns are handled inline (NULL, empty string, hex
literal); every other column goes through `convertValue`.  `none`
propagates `convertValue`'s out-of-bounds panic. -/
def fieldBytes (col : Column) (v : Option (List Nat)) : Option (List Nat) :=
  if toLowerAscii col.Typ = "blob" then
    match v with
    | none => some (strBytes "NULL")
    | some ret =>
      if ret = [] then some [39, 39]
      else some (blobPrefix ++ hexBytes ret)
  else convertValue v col.Typ

/-- The comma-separated value list of one row (a comma before every
field except the first). -/
def rowValuesAux : List (Column × Option (List Nat)) → Option (List Nat)
  | [] => some []
  | p :: ps =>
    match fieldBytes p.1 p.2, rowValuesAux ps with
    | some f, some fs => some (f ++ (if ps.isEmpty then [] else [44]) ++ fs)
    | _, _ => none

/-- The parenthesised tuple written into `curBuf` for one row (without
the leading comma, which depends on the position in the statement). -/
def rowFragment (cols : List Column) (row : List (Option (List Nat))) :
    Option (List Nat) :=
  (rowValuesAux (cols.zip row)).map fun vs => 40 :: (vs ++ [41])

/-- `initInert`: the statement prefix written at the top of every outer
iteration (byte 96 is the backquote). -/
def insertPrefix (tbl : List Nat) : List Nat :=
  strBytes "INSERT INTO " ++ (96 :: tbl) ++ (96 :: strBytes " VALUES ")

/-- The statement terminator written before each flush. -/
def termBytes : List Nat := [59, 10]

/-- The batch start strips one leading comma from the carried pending
row (`bts[0] == ','`; the source only reaches this read when `curBuf` is
non-empty). -/
def stripComma : List Nat → List Nat
  | [] => []
  | c :: rest => if c = 44 then rest else c :: rest

/-- The inner `r.Next()` loop of `showInsert` on the encoded row
fragments still to be pulled: write the next row into `curBuf` (with a
leading comma unless it is the statement's first row), stop as soon as
batch plus pending reach the budget, otherwise commit the pending row to
the batch.  Returns the batch buffer, the `curBuf` contents and the
remaining rows at loop exit. -/
def insertInner (B : Nat) :
    List (List Nat) → List Nat → Bool → List Nat × List Nat × List (List Nat)
  | [], buf, _ => (buf, [], [])
  | f :: rest, buf, first =>
    let cur := if first then f else 44 :: f
    if B ≤ buf.length + cur.length then (buf, cur, rest)
    else insertInner B rest (buf ++ cur) false

/-- The outer loop of `showInsert`, fuelled (each iteration either
consumes a row or ends the loop, so `2 * rows + 2` fuel is never
exhausted — see `insertOuterF_fuel`).  One iteration: append the
statement prefix to the carried buffer (the buffer is *not* reset when
the previous iteration emitted nothing), append the pending row with its
leading comma stripped, run the inner loop, and either flush
`buf ++ ";\n"` (draining the buffer), or continue carrying the
un-drained buffer, or stop. -/
def insertOuterF (pre : List Nat) (B : Nat) :
    Nat → List (List Nat) → List Nat → List Nat → List (List Nat)
  | 0, _, _, _ => []
  | fuel + 1, rows, bufIn, pending =>
    let buf1 := bufIn ++ pre
    let buf2 := if pending.isEmpty then buf1 else buf1 ++ stripComma pending
    let r := insertInner B rows buf2 pending.isEmpty
    if buf1.length < r.1.length then
      (r.1 ++ termBytes) :: insertOuterF pre B fuel r.2.2 [] r.2.1
    else if r.2.1.isEmpty then []
    else insertOuterF pre B fuel r.2.2 r.1 r.2.1

/-- The outer loop started on empty buffers, with sufficient fuel. -/
def insertOuter (pre : List Nat) (B : Nat) (rows : List (List Nat)) :
    List (List Nat) :=
  insertOuterF pre B (2 * rows.length + 2) rows [] []

/-- `showInsert`: encode every row, then batch the encoded fragments.
Returns the list of emitted statements (each including its terminating
semicolon and newline; the trailing blank-line separator after the loop
is not a statement), or `none` when a row encoding panics. -/
def showInsert (cols : List Column) (tbl : List Nat) (B : Nat)
    (rows : List (List (Option (List Nat)))) : Option (List (List Nat)) :=
  (rows.mapM (rowFragment cols)).map fun frags =>
    insertOuter (insertPrefix tbl) B frags

/-- Rendering of a sequence of committed rows inside one statement: a
comma before every row except the first. -/
def joinRows : Bool → List (List Nat) → List Nat
  | _, [] => []
  | true, f :: fs => f ++ joinRows false fs
  | false, f :: fs => 44 :: (f ++ joinRows false fs)

/-- The byte content of one emitted statement holding the row group `g`:
the prefix (written twice when the previous iteration carried an
un-drained buffer), the joined rows, and the terminator. -/
def renderStmt (pre : List Nat) (dup : Bool) (g : List (List Nat)) :
    List Nat :=
  (if dup then pre ++ pre else pre) ++ (joinRows true g ++ termBytes)

/- ### Structural lemmas for the batch writer -/

/-- A row fragment always starts with an opening parenthesis, so it is
never empty and never starts with a comma. -/
theorem rowFragment_shape (cols : List Column) (row : List (Option (List Nat)))
    (f : List Nat) (h : rowFragment cols row = some f) : ∃ g, f = 40 :: g := by
  rw [rowFragment] at h
  rcases Option.map_eq_some'.mp h with ⟨vs, _, hf⟩
  exact ⟨vs ++ [41], hf.symm⟩

/-- Stripping the leading comma of a fragment-shaped list is the
identity. -/
theorem stripComma_frag (g : List Nat) : stripComma (40 :: g) = 40 :: g := by
  simp [stripComma]

/-- Stripping the leading comma of a comma-prefixed list. -/
theorem stripComma_comma (p : List Nat) : stripComma (44 :: p) = p := by
  simp [stripComma]

/-- A joined row group is empty only when the group is empty (row
fragments are non-empty). -/
theorem joinRows_eq_nil (first : Bool) (cs : List (List Nat))
    (hf : ∀ f ∈ cs, ∃ g, f = 40 :: g) (h : joinRows first cs = []) :
    cs = [] := by
  match first, cs with
  | _, [] => rfl
  | true, f :: fs =>
    obtain ⟨g, hg⟩ := hf f (List.mem_cons_self _ _)
    rw [joinRows, hg] at h
    exact absurd h (by simp)
  | false, f :: fs => exact absurd h (by simp [joinRows])

/-- When the buffer has already reached the budget, the inner loop
commits nothing: the next row (if any) goes straight to the pending
buffer. -/
theorem insertInner_full (B : Nat) (rows : List (List Nat)) (buf : List Nat)
    (first : Bool) (h : B ≤ buf.length) :
    insertInner B rows buf first =
      (buf,
        (match rows with
         | [] => ([] : List Nat)
         | f :: _ => if first then f else 44 :: f),
        rows.tail) := by
  cases rows with
  | nil => rfl
  | cons f rest =>
    simp only [insertInner]
    rw [if_pos (le_trans h (Nat.le_add_right _ _))]
    rfl

/-- A row strictly below the budget is committed to the buffer. -/
theorem insertInner_commit (B : Nat) (f : List Nat) (rest : List (List Nat))
    (buf : List Nat) (first : Bool)
    (h : buf.length + (if first then f else 44 :: f).length < B) :
    insertInner B (f :: rest) buf first =
      insertInner B rest (buf ++ (if first then f else 44 :: f)) false := by
  simp only [insertInner]
  rw [if_neg (by omega)]

/-- Structural specification of the inner loop: a prefix `cs` of the
rows is committed to the buffer in order; the loop either exhausts the
rows with an empty pending buffer, or stops at the first row whose
addition would reach the budget, leaving it pending (with a leading
comma unless it would have been the statement's first row). -/
theorem insertInner_spec (B : Nat) (rows : List (List Nat)) :
    ∀ (buf : List Nat) (first : Bool),
      ∃ cs : List (List Nat),
        (insertInner B rows buf first).1 = buf ++ joinRows first cs ∧
        (cs = [] ∨ (insertInner B rows buf first).1.length < B) ∧
        (((insertInner B rows buf first).2.1 = [] ∧ rows = cs ∧
            (insertInner B rows buf first).2.2 = []) ∨
          (∃ p, rows = cs ++ p :: (insertInner B rows buf first).2.2 ∧
            (insertInner B rows buf first).2.1 =
              (if (first && cs.isEmpty) = true then p else 44 :: p) ∧
            B ≤ (insertInner B rows buf first).1.length +
              (insertInner B rows buf first).2.1.length)) := by
  induction rows with
  | nil =>
    intro buf first
    exact ⟨[], by simp [insertInner, joinRows], Or.inl rfl,
      Or.inl ⟨rfl, rfl, rfl⟩⟩
  | cons f rest ih =>
    intro buf first
    by_cases hov : B ≤ buf.length + (if first then f else 44 :: f).length
    · have he : insertInner B (f :: rest) buf first =
          (buf, if first then f else 44 :: f, rest) := by
        simp only [insertInner]
        rw [if_pos hov]
      refine ⟨[], ?_, Or.inl rfl, Or.inr ⟨f, ?_, ?_, ?_⟩⟩
      · rw [he]; simp [joinRows]
      · rw [he]; simp
      · rw [he]; cases first <;> simp
      · rw [he]; simpa using hov
    · have he : insertInner B (f :: rest) buf first =
          insertInner B rest (buf ++ (if first then f else 44 :: f)) false := by
        simp only [insertInner]
        rw [if_neg hov]
      obtain ⟨cs, h1, h2, h3⟩ := ih (buf ++ (if first then f else 44 :: f)) false
      refine ⟨f :: cs, ?_, ?_, ?_⟩
      · rw [he, h1]
        cases first <;> simp [joinRows]
      · right
        rw [he]
        rcases h2 with hcs | hlt
        · subst hcs
          rw [h1]
          simp only [joinRows, List.append_nil]
          have : buf.length + (if first then f else 44 :: f).length < B := by
            omega
          simpa using this
        · exact hlt
      · rcases h3 with ⟨hc1, hrows, hc2⟩ | ⟨p, hp1, hp2, hp3⟩
        · left
          rw [he]
          exact ⟨hc1, by rw [hrows], hc2⟩
        · right
          refine ⟨p, ?_, ?_, ?_⟩
          · rw [he]
            rw [List.cons_append]
            exact congrArg (f :: ·) hp1
          · rw [he, hp2]
            simp
          · rw [he]; exact hp3

/-- One unfolding step of the fuelled outer loop. -/
theorem insertOuterF_succ (pre : List Nat) (B : Nat) (F : Nat)
    (rows : List (List Nat)) (bufIn pending : List Nat) :
    insertOuterF pre B (F + 1) rows bufIn pending =
      (let buf1 := bufIn ++ pre
       let buf2 := if pending.isEmpty then buf1 else buf1 ++ stripComma pending
       let r := insertInner B rows buf2 pending.isEmpty
       if buf1.length < r.1.length then
         (r.1 ++ termBytes) :: insertOuterF pre B F r.2.2 [] r.2.1
       else if r.2.1.isEmpty then []
       else insertOuterF pre B F r.2.2 r.1 r.2.1) := rfl

/-- One step of the outer loop when no pending row is carried. -/
theorem insertOuterF_step_nil (pre : List Nat) (B F : Nat)
    (rows : List (List Nat)) (bufIn : List Nat) :
    insertOuterF pre B (F + 1) rows bufIn [] =
      (if (bufIn ++ pre).length <
          (insertInner B rows (bufIn ++ pre) true).1.length then
        ((insertInner B rows (bufIn ++ pre) true).1 ++ termBytes) ::
          insertOuterF pre B F (insertInner B rows (bufIn ++ pre) true).2.2 []
            (insertInner B rows (bufIn ++ pre) true).2.1
      else if (insertInner B rows (bufIn ++ pre) true).2.1.isEmpty then []
      else insertOuterF pre B F (insertInner B rows (bufIn ++ pre) true).2.2
        (insertInner B rows (bufIn ++ pre) true).1
        (insertInner B rows (bufIn ++ pre) true).2.1) := rfl

/-- One step of the outer loop when a pending row is carried. -/
theorem insertOuterF_step_pend (pre : List Nat) (B F : Nat)
    (rows : List (List Nat)) (bufIn pending : List Nat)
    (hne : pending ≠ []) :
    insertOuterF pre B (F + 1) rows bufIn pending =
      (if (bufIn ++ pre).length <
          (insertInner B rows ((bufIn ++ pre) ++ stripComma pending)
            false).1.length then
        ((insertInner B rows ((bufIn ++ pre) ++ stripComma pending)
            false).1 ++ termBytes) ::
          insertOuterF pre B F
            (insertInner B rows ((bufIn ++ pre) ++ stripComma pending)
              false).2.2 []
            (insertInner B rows ((bufIn ++ pre) ++ stripComma pending)
              false).2.1
      else if (insertInner B rows ((bufIn ++ pre) ++ stripComma pending)
          false).2.1.isEmpty then []
      else insertOuterF pre B F
        (insertInner B rows ((bufIn ++ pre) ++ stripComma pending)
          false).2.2
        (insertInner B rows ((bufIn ++ pre) ++ stripComma pending) false).1
        (insertInner B rows ((bufIn ++ pre) ++ stripComma pending)
          false).2.1) := by
  cases pending with
  | nil => exact absurd rfl hne
  | cons c pend => rfl

/-- A list with a cons shape is not `isEmpty`. -/
theorem isEmpty_false_of_ne_nil {α : Type} (l : List α) (h : l ≠ []) :
    l.isEmpty = false := by
  cases l with
  | nil => exact absurd rfl h
  | cons c cs => rfl

/-- Members of a `zipWith` over `Forall₂`-related lists come from
related pairs. -/
theorem zipWith_mem_of_forall₂ {α β γ : Type} {R : α → β → Prop}
    (f : α → β → γ) {l₁ : List α} {l₂ : List β}
    (h : List.Forall₂ R l₁ l₂) :
    ∀ c ∈ List.zipWith f l₁ l₂,
      ∃ a b, a ∈ l₁ ∧ b ∈ l₂ ∧ R a b ∧ c = f a b := by
  induction h with
  | nil => simp
  | @cons a b l₁ l₂ hR _ ih =>
    intro c hc
    rw [List.zipWith_cons_cons] at hc
    rcases List.mem_cons.mp hc with hc | hc
    · exact ⟨a, b, List.mem_cons_self _ _, List.mem_cons_self _ _, hR, hc⟩
    · obtain ⟨a', b', ha', hb', hR', hc'⟩ := ih c hc
      exact ⟨a', b', List.mem_cons_of_mem _ ha', List.mem_cons_of_mem _ hb',
        hR', hc'⟩

/-- Members of a successful `mapM` result have a preimage. -/
theorem mapM_some_mem {α β : Type} (g : α → Option β) :
    ∀ (l : List α) (l' : List β), l.mapM g = some l' →
      ∀ b ∈ l', ∃ a ∈ l, g a = some b := by
  intro l
  induction l with
  | nil =>
    intro l' h b hb
    simp only [List.mapM_nil, Option.pure_def, Option.some_inj] at h
    subst h
    exact absurd hb (List.not_mem_nil b)
  | cons a l ih =>
    intro l' h b hb
    rw [List.mapM_cons] at h
    cases hga : g a with
    | none => rw [hga] at h; simp at h
    | some b0 =>
      cases hrest : l.mapM g with
      | none => rw [hga, hrest] at h; simp at h
      | some bs =>
        rw [hga, hrest] at h
        simp only [Option.pure_def, Option.bind_eq_bind, Option.some_bind,
          Option.some_inj] at h
        subst h
        rcases List.mem_cons.mp hb with hb | hb
        · subst hb
          exact ⟨a, List.mem_cons_self _ _, hga⟩
        · obtain ⟨a', ha', hga'⟩ := ih bs hrest b hb
          exact ⟨a', List.mem_cons_of_mem _ ha', hga'⟩

/-- Master decomposition of the fuelled outer loop.  From a reachable
state (the carried buffer is empty, or — after an iteration that flushed
nothing — equals one statement prefix with an oversized pending row, the
invariant hypothesis `hinv`), the emitted statements render consecutive
groups of the remaining row fragments, `pendSrc` being the source
fragment of the carried pending buffer.  Every group is non-empty and
every statement stays within one byte of the budget unless its group is
a single row. -/
theorem insertOuterF_decomp (pre : List Nat) (B : Nat) :
    ∀ (fuel : Nat) (rows : List (List Nat)) (bufIn pending : List Nat)
      (pendSrc : Option (List Nat)),
      2 * rows.length + (if pending = [] then 0 else 1) < fuel →
      (∀ f ∈ rows, ∃ g, f = 40 :: g) →
      (∀ p, pendSrc = some p → ∃ g, p = 40 :: g) →
      ((bufIn = [] ∧
          ((pending = [] ∧ pendSrc = none) ∨
            (∃ p, pendSrc = some p ∧ (pending = p ∨ pending = 44 :: p)))) ∨
        (bufIn = pre ∧ ∃ p, pendSrc = some p ∧ pending = p ∧
          B ≤ pre.length + p.length)) →
      ∃ (dups : List Bool) (groups : List (List (List Nat))),
        insertOuterF pre B fuel rows bufIn pending =
          List.zipWith (renderStmt pre) dups groups ∧
        dups.length = groups.length ∧
        groups.flatten = pendSrc.toList ++ rows ∧
        List.Forall₂
          (fun dup g => g ≠ [] ∧ (g.length = 1 ∨
            (dup = false ∧ (renderStmt pre dup g).length ≤ B + 1)))
          dups groups := by
  intro fuel
  induction fuel with
  | zero =>
    intro rows bufIn pending pendSrc hfuel _ _ _
    exact absurd hfuel (Nat.not_lt_zero _)
  | succ F ih =>
    intro rows bufIn pending pendSrc hfuel hrows hpsrc hinv
    rcases hinv with ⟨hbuf, hpd⟩ | ⟨hbuf, p, hps, hpd, hBp⟩
    · subst hbuf
      rcases hpd with ⟨hp0, hps0⟩ | ⟨p, hps, hpp⟩
      · -- N1: fresh statement, no pending row carried
        subst hp0; subst hps0
        rw [if_pos rfl] at hfuel
        obtain ⟨cs, hb, hsz, hcase⟩ := insertInner_spec B rows pre true
        have hsubcs : ∀ f ∈ cs, f ∈ rows := by
          rcases hcase with ⟨_, hq2, _⟩ | ⟨q, hq1, _, _⟩
          · intro f hf; rw [hq2]; exact hf
          · intro f hf; rw [hq1]; exact List.mem_append_left _ hf
        have hstep : insertOuterF pre B (F + 1) rows [] [] =
            (if pre.length < (insertInner B rows pre true).1.length then
              ((insertInner B rows pre true).1 ++ termBytes) ::
                insertOuterF pre B F (insertInner B rows pre true).2.2 []
                  (insertInner B rows pre true).2.1
            else if (insertInner B rows pre true).2.1.isEmpty then []
            else insertOuterF pre B F (insertInner B rows pre true).2.2
              (insertInner B rows pre true).1
              (insertInner B rows pre true).2.1) := by
          rw [insertOuterF_step_nil]
          simp only [List.nil_append]
        by_cases hemit : pre.length < (insertInner B rows pre true).1.length
        · have hcs : cs ≠ [] := by
            intro h0
            subst h0
            rw [hb] at hemit
            simp [joinRows] at hemit
          have hlt : (insertInner B rows pre true).1.length < B :=
            hsz.resolve_left hcs
          have hrend : renderStmt pre false cs =
              (insertInner B rows pre true).1 ++ termBytes := by
            rw [hb]
            simp [renderStmt, List.append_assoc]
          have hPhead : cs ≠ [] ∧ (cs.length = 1 ∨
              (false = false ∧ (renderStmt pre false cs).length ≤ B + 1)) := by
            refine ⟨hcs, Or.inr ⟨rfl, ?_⟩⟩
            rw [hrend]
            simp only [List.length_append, termBytes, List.length_cons,
              List.length_nil]
            omega
          rcases hcase with ⟨hq1, hq2, hq3⟩ | ⟨p, hp1, hp2, hp3⟩
          · have hF : 0 < F := by
              have h1 : 0 < rows.length := by
                rw [hq2]
                exact List.length_pos.mpr hcs
              omega
            obtain ⟨dups', groups', heq', hlen', hjoin', hfa'⟩ :=
              ih [] [] [] none (by simpa using hF)
                (by intro f hf; exact absurd hf (List.not_mem_nil f))
                (fun q hq => Option.noConfusion hq)
                (Or.inl ⟨rfl, Or.inl ⟨rfl, rfl⟩⟩)
            refine ⟨false :: dups', cs :: groups', ?_, ?_, ?_, ?_⟩
            · rw [hstep, if_pos hemit, hq1, hq3, heq',
                List.zipWith_cons_cons, hrend]
            · simpa using hlen'
            · rw [hq2]
              simp [hjoin']
            · exact List.Forall₂.cons hPhead hfa'
          · have hpfrag : ∃ g, p = 40 :: g := by
              refine hrows p ?_
              rw [hp1]
              exact List.mem_append_right _ (List.mem_cons_self _ _)
            have hpne : p ≠ [] := by
              obtain ⟨g, hg⟩ := hpfrag; rw [hg]; simp
            have hcur : (insertInner B rows pre true).2.1 = p ∨
                (insertInner B rows pre true).2.1 = 44 :: p := by
              rw [hp2]
              split
              · exact Or.inl rfl
              · exact Or.inr rfl
            have hcurne : (insertInner B rows pre true).2.1 ≠ [] := by
              rcases hcur with h | h <;> rw [h]
              · exact hpne
              · simp
            have hlenr : rows.length =
                cs.length + ((insertInner B rows pre true).2.2.length + 1) := by
              have := congrArg List.length hp1
              simpa [List.length_append] using this
            obtain ⟨dups', groups', heq', hlen', hjoin', hfa'⟩ :=
              ih (insertInner B rows pre true).2.2 []
                (insertInner B rows pre true).2.1 (some p)
                (by rw [if_neg hcurne]; omega)
                (by
                  intro f hf
                  refine hrows f ?_
                  rw [hp1]
                  exact List.mem_append_right _ (List.mem_cons_of_mem _ hf))
                (fun q hq => by rw [← Option.some_inj.mp hq]; exact hpfrag)
                (Or.inl ⟨rfl, Or.inr ⟨p, rfl, hcur⟩⟩)
            refine ⟨false :: dups', cs :: groups', ?_, ?_, ?_, ?_⟩
            · rw [hstep, if_pos hemit, heq', List.zipWith_cons_cons, hrend]
            · simpa using hlen'
            · rw [hp1]
              simp [hjoin']
            · exact List.Forall₂.cons hPhead hfa'
        · -- nothing flushed from a fresh statement
          have hjnil : joinRows true cs = [] := by
            have h1 := congrArg List.length hb
            simp only [List.length_append] at h1
            have h2 : (joinRows true cs).length = 0 := by omega
            exact List.length_eq_zero.mp h2
          have hcs0 : cs = [] :=
            joinRows_eq_nil true cs (fun f hf => hrows f (hsubcs f hf)) hjnil
          subst hcs0
          rcases hcase with ⟨hq1, hq2, hq3⟩ | ⟨p, hp1, hp2, hp3⟩
          · refine ⟨[], [], ?_, rfl, ?_, List.Forall₂.nil⟩
            · rw [hstep, if_neg hemit, if_pos (by rw [hq1]; rfl)]
              rfl
            · rw [hq2]
              simp
          · -- first row of a fresh statement overflows: the buffer is
            -- carried un-drained (prefix duplication)
            have hpfrag : ∃ g, p = 40 :: g := by
              refine hrows p ?_
              rw [hp1]; simp
            have hpne : p ≠ [] := by
              obtain ⟨g, hg⟩ := hpfrag; rw [hg]; simp
            have hcur : (insertInner B rows pre true).2.1 = p := by
              rw [hp2]; simp
            have hr1 : (insertInner B rows pre true).1 = pre := by
              rw [hb]; simp [joinRows]
            have hBp : B ≤ pre.length + p.length := by
              have h3 := hp3
              rw [hr1, hcur] at h3
              exact h3
            have hlenr : rows.length =
                (insertInner B rows pre true).2.2.length + 1 := by
              have := congrArg List.length hp1
              simpa using this
            obtain ⟨dups', groups', heq', hlen', hjoin', hfa'⟩ :=
              ih (insertInner B rows pre true).2.2 pre p (some p)
                (by rw [if_neg hpne]; omega)
                (by
                  intro f hf
                  refine hrows f ?_
                  rw [hp1]
                  exact List.mem_cons_of_mem _ hf)
                (fun q hq => by rw [← Option.some_inj.mp hq]; exact hpfrag)
                (Or.inr ⟨rfl, p, rfl, rfl, hBp⟩)
            refine ⟨dups', groups', ?_, hlen', ?_, hfa'⟩
            · rw [hstep, if_neg hemit,
                if_neg (by rw [hcur, isEmpty_false_of_ne_nil p hpne]; simp),
                hr1, hcur, heq']
            · rw [hp1]
              simp [hjoin']
      · -- N2: a pending row is appended at the start of the statement
        subst hps
        obtain ⟨g, hg⟩ := hpsrc p rfl
        have hpne : p ≠ [] := by rw [hg]; simp
        have hpdne : pending ≠ [] := by
          rcases hpp with h | h <;> rw [h]
          · exact hpne
          · simp
        have hstrip : stripComma pending = p := by
          rcases hpp with h | h <;> rw [h]
          · rw [hg]; exact stripComma_frag g
          · exact stripComma_comma p
        rw [if_neg hpdne] at hfuel
        obtain ⟨cs, hb, hsz, hcase⟩ := insertInner_spec B rows (pre ++ p) false
        have hstep : insertOuterF pre B (F + 1) rows [] pending =
            (if pre.length < (insertInner B rows (pre ++ p) false).1.length then
              ((insertInner B rows (pre ++ p) false).1 ++ termBytes) ::
                insertOuterF pre B F (insertInner B rows (pre ++ p) false).2.2
                  [] (insertInner B rows (pre ++ p) false).2.1
            else if (insertInner B rows (pre ++ p) false).2.1.isEmpty then []
            else insertOuterF pre B F (insertInner B rows (pre ++ p) false).2.2
              (insertInner B rows (pre ++ p) false).1
              (insertInner B rows (pre ++ p) false).2.1) := by
          rw [insertOuterF_step_pend pre B F rows [] pending hpdne, hstrip]
          simp only [List.nil_append]
        have hemit : pre.length <
            (insertInner B rows (pre ++ p) false).1.length := by
          rw [hb]
          simp only [List.length_append]
          have h4 : 0 < p.length := List.length_pos.mpr hpne
          omega
        have hrend : renderStmt pre false (p :: cs) =
            (insertInner B rows (pre ++ p) false).1 ++ termBytes := by
          rw [hb]
          simp [renderStmt, joinRows, List.append_assoc]
        have hPhead : (p :: cs) ≠ [] ∧ ((p :: cs).length = 1 ∨
            (false = false ∧
              (renderStmt pre false (p :: cs)).length ≤ B + 1)) := by
          refine ⟨by simp, ?_⟩
          by_cases hcs : cs = []
          · subst hcs; exact Or.inl rfl
          · refine Or.inr ⟨rfl, ?_⟩
            have hlt := hsz.resolve_left hcs
            rw [hrend]
            simp only [List.length_append, termBytes, List.length_cons,
              List.length_nil]
            omega
        rcases hcase with ⟨hq1, hq2, hq3⟩ | ⟨q, hp1, hp2, hp3⟩
        · have hF : 0 < F := by omega
          obtain ⟨dups', groups', heq', hlen', hjoin', hfa'⟩ :=
            ih [] [] [] none (by simpa using hF)
              (by intro f hf; exact absurd hf (List.not_mem_nil f))
              (fun q hq => Option.noConfusion hq)
              (Or.inl ⟨rfl, Or.inl ⟨rfl, rfl⟩⟩)
          refine ⟨false :: dups', (p :: cs) :: groups', ?_, ?_, ?_, ?_⟩
          · rw [hstep, if_pos hemit, hq1, hq3, heq',
              List.zipWith_cons_cons, hrend]
          · simpa using hlen'
          · rw [hq2]
            simp [hjoin']
          · exact List.Forall₂.cons hPhead hfa'
        · have hqfrag : ∃ g2, q = 40 :: g2 := by
            refine hrows q ?_
            rw [hp1]
            exact List.mem_append_right _ (List.mem_cons_self _ _)
          have hqne : q ≠ [] := by
            obtain ⟨g2, hg2⟩ := hqfrag; rw [hg2]; simp
          have hcur : (insertInner B rows (pre ++ p) false).2.1 = q ∨
              (insertInner B rows (pre ++ p) false).2.1 = 44 :: q := by
            rw [hp2]
            split
            · exact Or.inl rfl
            · exact Or.inr rfl
          have hcurne : (insertInner B rows (pre ++ p) false).2.1 ≠ [] := by
            rcases hcur with h | h <;> rw [h]
            · exact hqne
            · simp
          have hlenr : rows.length = cs.length +
              ((insertInner B rows (pre ++ p) false).2.2.length + 1) := by
            have := congrArg List.length hp1
            simpa [List.length_append] using this
          obtain ⟨dups', groups', heq', hlen', hjoin', hfa'⟩ :=
            ih (insertInner B rows (pre ++ p) false).2.2 []
              (insertInner B rows (pre ++ p) false).2.1 (some q)
              (by rw [if_neg hcurne]; omega)
              (by
                intro f hf
                refine hrows f ?_
                rw [hp1]
                exact List.mem_append_right _ (List.mem_cons_of_mem _ hf))
              (fun q2 hq2 => by rw [← Option.some_inj.mp hq2]; exact hqfrag)
              (Or.inl ⟨rfl, Or.inr ⟨q, rfl, hcur⟩⟩)
          refine ⟨false :: dups', (p :: cs) :: groups', ?_, ?_, ?_, ?_⟩
          · rw [hstep, if_pos hemit, heq', List.zipWith_cons_cons, hrend]
          · simpa using hlen'
          · rw [hp1]
            simp [hjoin']
          · exact List.Forall₂.cons hPhead hfa'
    · -- N3: duplicated prefix with an oversized single pending row
      subst hps
      obtain ⟨g, hg⟩ := hpsrc p rfl
      have hpne : p ≠ [] := by rw [hg]; simp
      have hpdne : pending ≠ [] := by rw [hpd]; exact hpne
      rw [if_neg hpdne] at hfuel
      have hstrip : stripComma pending = p := by
        rw [hpd, hg]; exact stripComma_frag g
      have hB2 : B ≤ ((pre ++ pre) ++ p).length := by
        simp only [List.length_append]
        omega
      have hfull := insertInner_full B rows ((pre ++ pre) ++ p) false hB2
      have hlt : (pre ++ pre).length < ((pre ++ pre) ++ p).length := by
        simp only [List.length_append]
        have h4 : 0 < p.length := List.length_pos.mpr hpne
        omega
      have hstep : insertOuterF pre B (F + 1) rows bufIn pending =
          ((((pre ++ pre) ++ p) ++ termBytes) ::
            insertOuterF pre B F rows.tail []
              (match rows with
               | [] => ([] : List Nat)
               | f :: _ => 44 :: f)) := by
        rw [hbuf, insertOuterF_step_pend pre B F rows pre pending hpdne,
          hstrip, hfull, if_pos hlt]
        cases rows <;> rfl
      have hrend : renderStmt pre true [p] =
          ((pre ++ pre) ++ p) ++ termBytes := by
        simp [renderStmt, joinRows, List.append_assoc]
      have hPhead : ([p] : List (List Nat)) ≠ [] ∧
          (([p] : List (List Nat)).length = 1 ∨
            (true = false ∧ (renderStmt pre true [p]).length ≤ B + 1)) :=
        ⟨by simp, Or.inl rfl⟩
      cases rows with
      | nil =>
        have hF : 0 < F := by omega
        simp only [List.tail_nil] at hstep
        obtain ⟨dups', groups', heq', hlen', hjoin', hfa'⟩ :=
          ih [] [] [] none (by simpa using hF)
            (by intro f hf; exact absurd hf (List.not_mem_nil f))
            (fun q hq => Option.noConfusion hq)
            (Or.inl ⟨rfl, Or.inl ⟨rfl, rfl⟩⟩)
        refine ⟨true :: dups', [p] :: groups', ?_, ?_, ?_, ?_⟩
        · rw [hstep, heq', List.zipWith_cons_cons, hrend]
        · simpa using hlen'
        · simp [hjoin']
        · exact List.Forall₂.cons hPhead hfa'
      | cons f rest =>
        have hffrag : ∃ g2, f = 40 :: g2 := hrows f (List.mem_cons_self _ _)
        simp only [List.tail_cons] at hstep
        obtain ⟨dups', groups', heq', hlen', hjoin', hfa'⟩ :=
          ih rest [] (44 :: f) (some f)
            (by
              rw [if_neg (by simp)]
              simp only [List.length_cons] at hfuel
              omega)
            (by intro f2 hf2; exact hrows f2 (List.mem_cons_of_mem _ hf2))
            (fun q hq => by rw [← Option.some_inj.mp hq]; exact hffrag)
            (Or.inl ⟨rfl, Or.inr ⟨f, rfl, Or.inr rfl⟩⟩)
        refine ⟨true :: dups', [p] :: groups', ?_, ?_, ?_, ?_⟩
        · rw [hstep, heq', List.zipWith_cons_cons, hrend]
        · simpa using hlen'
        · simp [hjoin']
        · exact List.Forall₂.cons hPhead hfa'

/-- **C1 (amended)** — For every table's row stream and every byte
budget `B`, every emitted statement either has byte length at most
`B + 1` (the committed body stays below `B`, and the two-byte `;`-and-
newline terminator can place the flushed statement one byte over `B`),
or consists of exactly one row: a row is emitted alone whenever the
prefix plus its encoding reach `B` — the row's own encoding need not
exceed `B` — and when that happens on the first row of a fresh statement
the un-drained buffer duplicates the INSERT prefix.  The claim's bound
`B`, with its exception restricted to rows whose own encoding exceeds
`B`, fails: see `showInsert_budget_violated`. -/
theorem showInsert_budget (cols : List Column) (tbl : List Nat) (B : Nat)
    (rows : List (List (Option (List Nat)))) (stmts : List (List Nat))
    (h : showInsert cols tbl B rows = some stmts) :
    ∀ s ∈ stmts, s.length ≤ B + 1 ∨
      ∃ row f, row ∈ rows ∧ rowFragment cols row = some f ∧
        (s = insertPrefix tbl ++ (f ++ termBytes) ∨
         s = insertPrefix tbl ++ (insertPrefix tbl ++ (f ++ termBytes))) := by
  rw [showInsert] at h
  rcases Option.map_eq_some'.mp h with ⟨frags, hmap, hout⟩
  have hfr : ∀ f ∈ frags, ∃ g, f = 40 :: g := by
    intro f hf
    obtain ⟨row, _, hrf⟩ := mapM_some_mem (rowFragment cols) rows frags hmap f hf
    exact rowFragment_shape cols row f hrf
  obtain ⟨dups, groups, heq, hlen, hjoin, hfa⟩ :=
    insertOuterF_decomp (insertPrefix tbl) B (2 * frags.length + 2) frags [] []
      none (by rw [if_pos rfl]; omega) hfr
      (fun q hq => Option.noConfusion hq)
      (Or.inl ⟨rfl, Or.inl ⟨rfl, rfl⟩⟩)
  intro s hs
  rw [← hout, insertOuter, heq] at hs
  obtain ⟨dup, grp, hdmem, hgmem, ⟨hgne, hP⟩, hs_eq⟩ :=
    zipWith_mem_of_forall₂ (renderStmt (insertPrefix tbl)) hfa s hs
  rcases hP with hone | ⟨hdup, hbound⟩
  · right
    obtain ⟨f, rfl⟩ := List.length_eq_one.mp hone
    have hf_mem : f ∈ frags := by
      have h1 : f ∈ groups.flatten :=
        List.mem_flatten.mpr ⟨[f], hgmem, List.mem_cons_self _ _⟩
      rw [hjoin] at h1
      simpa using h1
    obtain ⟨row, hrow, hrf⟩ := mapM_some_mem _ rows frags hmap f hf_mem
    refine ⟨row, f, hrow, hrf, ?_⟩
    rw [hs_eq]
    cases dup
    · left
      simp [renderStmt, joinRows, List.append_assoc]
    · right
      simp [renderStmt, joinRows, List.append_assoc]
  · left
    rw [hs_eq]
    exact hbound

/-- Witness: the budget bound evaluated on a concrete two-row dump at
budget 30, instantiated at the first emitted statement. -/
theorem showInsert_budget_witness :
    showInsert [⟨"a", "int"⟩] (strBytes "t") 30 [[some [49]], [some [50]]] =
      some [insertPrefix (strBytes "t") ++ ([40, 49, 41] ++ termBytes),
        insertPrefix (strBytes "t") ++ ([40, 50, 41] ++ termBytes)] ∧
    ((insertPrefix (strBytes "t") ++ ([40, 49, 41] ++ termBytes)).length ≤
        30 + 1 ∨
      ∃ row f, row ∈ [[some [49]], [some ([50] : List Nat)]] ∧
        rowFragment [⟨"a", "int"⟩] row = some f ∧
        (insertPrefix (strBytes "t") ++ ([40, 49, 41] ++ termBytes) =
            insertPrefix (strBytes "t") ++ (f ++ termBytes) ∨
          insertPrefix (strBytes "t") ++ ([40, 49, 41] ++ termBytes) =
            insertPrefix (strBytes "t") ++
              (insertPrefix (strBytes "t") ++ (f ++ termBytes)))) :=
  ⟨by decide,
    showInsert_budget [⟨"a", "int"⟩] (strBytes "t") 30
      [[some [49]], [some [50]]]
      [insertPrefix (strBytes "t") ++ ([40, 49, 41] ++ termBytes),
        insertPrefix (strBytes "t") ++ ([40, 50, 41] ++ termBytes)]
      (by decide)
      (insertPrefix (strBytes "t") ++ ([40, 49, 41] ++ termBytes))
      (by decide)⟩

/-- `replaceByte` leaves a run of a different byte unchanged. -/
theorem replaceByte_replicate (b : Nat) (r : List Nat) (c n : Nat)
    (h : c ≠ b) :
    replaceByte b r (List.replicate n c) = List.replicate n c := by
  induction n with
  | zero => rfl
  | succ n ih => simp [List.replicate_succ, replaceByte, h, ih]

/-- Evaluation of the batch writer on a one-column `text` table with the
rows `a` and a 1048542-byte second value: exactly one statement is
emitted and it is 1048577 bytes long.  (Stated over an abstract second
value to keep the proof symbolic in its one million bytes.) -/
theorem showInsert_two_rows_len (v : List Nat)
    (hvlen : v.length = 1048542) (hvesc : escapeSqlBytes v = v) :
    (showInsert [⟨"a", "text"⟩] (strBytes "t") 1048576
        [[some [97]], [some v]]).map (fun stmts => stmts.map List.length) =
      some [1048577] := by
  have hf1 : rowFragment [⟨"a", "text"⟩] [some [97]] =
      some [40, 39, 97, 39, 41] := by decide
  have hcv : convertValue (some v) "text" = some (quoteSql v) :=
    convertValue_text_eq _
  have hf2 : rowFragment [⟨"a", "text"⟩] [some v] =
      some (40 :: (quoteSql v ++ [41])) := by
    simp only [rowFragment, List.zip_cons_cons, List.zip_nil_right,
      rowValuesAux, fieldBytes]
    rw [if_neg (by decide : ¬toLowerAscii "text" = "blob"), hcv]
    simp
  have hmap : ([[some [97]], [some v]] :
        List (List (Option (List Nat)))).mapM (rowFragment [⟨"a", "text"⟩]) =
      some [[40, 39, 97, 39, 41], 40 :: (quoteSql v ++ [41])] := by
    rw [List.mapM_cons, List.mapM_cons, List.mapM_nil, hf1, hf2]
    rfl
  have hq : (quoteSql v).length = 1048544 := by
    rw [quoteSql, hvesc]
    simp [hvlen]
  have hprelen : (insertPrefix (strBytes "t")).length = 23 := by decide
  have hi1 : insertInner 1048576
      [[40, 39, 97, 39, 41], 40 :: (quoteSql v ++ [41])]
      (insertPrefix (strBytes "t")) true =
      ((insertPrefix (strBytes "t") ++ [40, 39, 97, 39, 41]) ++
        (44 :: (40 :: (quoteSql v ++ [41]))), [], []) := by
    rw [insertInner_commit 1048576 _ _ _ true (by simp [hprelen]),
      insertInner_commit 1048576 _ _ _ false (by simp [hprelen, hq])]
    rfl
  have hstmt : insertOuterF (insertPrefix (strBytes "t")) 1048576 6
      [[40, 39, 97, 39, 41], 40 :: (quoteSql v ++ [41])] [] [] =
      [((insertPrefix (strBytes "t") ++ [40, 39, 97, 39, 41]) ++
        (44 :: (40 :: (quoteSql v ++ [41])))) ++ termBytes] := by
    rw [insertOuterF_step_nil (insertPrefix (strBytes "t")) 1048576 5]
    simp only [List.nil_append]
    rw [hi1]
    rw [if_pos (by simp [hprelen, hq])]
    rw [insertOuterF_step_nil (insertPrefix (strBytes "t")) 1048576 4]
    simp only [List.nil_append]
    rw [if_neg (show ¬((insertPrefix (strBytes "t")).length <
        (insertInner 1048576 [] (insertPrefix (strBytes "t")) true).1.length)
        from by simp [insertInner])]
    rfl
  have hshow : showInsert [⟨"a", "text"⟩] (strBytes "t") 1048576
      [[some [97]], [some v]] =
      some [((insertPrefix (strBytes "t") ++ [40, 39, 97, 39, 41]) ++
        (44 :: (40 :: (quoteSql v ++ [41])))) ++ termBytes] := by
    rw [showInsert, hmap]
    simp only [Option.map_some', Option.some_inj]
    rw [insertOuter,
      (by simp : 2 * ([[40, 39, 97, 39, 41],
        40 :: (quoteSql v ++ [41])] : List (List Nat)).length + 2 = 6),
      hstmt]
  rw [hshow]
  simp [hprelen, hq, termBytes]

/-- **C1 (counterexample)** — With the default budget `B = 1048576`
(which satisfies any minimum bound), a one-column `text` table with the
rows `a` and a 1048542-byte value yields exactly one emitted statement,
of byte length 1048577 = B + 1 > B.  That statement contains *both*
rows, so the claim's exception — a statement consisting of exactly one
row whose own encoding exceeds `B` — does not apply, refuting the
claimed bound. -/
theorem showInsert_budget_violated :
    (showInsert [⟨"a", "text"⟩] (strBytes "t") 1048576
        [[some [97]], [some (List.replicate 1048542 97)]]).map
        (fun stmts => stmts.map List.length) = some [1048577] :=
  showInsert_two_rows_len (List.replicate 1048542 97)
    (List.length_replicate _ _)
    (by
      rw [escapeSqlBytes, replaceByte_replicate 92 [92, 92] 97 _ (by decide),
        replaceByte_replicate 39 [92, 39] 97 _ (by decide)])

/-- A table descriptor (the source's `Table{Name, Kind}`) paired with
its creation statement.  The source keeps two parallel slices
(`opt.tables` and `createTable`) which are always indexed and swapped in
lockstep; they are modelled as one list of pairs. -/
structure Entry where
  Name : String
  Kind : String
  create : String
  deriving Repr, DecidableEq, Inhabited

/-- Modelled from the spec: the catalog tag for view relations
(`catalog.SystemViewRel`, declared outside this repository).  Only its
distinctness from the other relation kinds matters. -/
def SystemViewRel : String := "v"

/-- Modelled from the spec: the catalog tag for ordinary relations. -/
def SystemOrdinaryRel : String := "r"

/-- `strings.Count(hay, needle) > 0`: the needle occurs as a substring.
`strings.Count` of an empty pattern is positive, and a valid-UTF-8
byte-level occurrence always falls on character boundaries, so the
character-level infix test is exact. -/
def isSubstr (needle hay : String) : Bool :=
  decide (List.IsInfix needle.toList hay.toList)

/-- The left scan of `dumpData`'s partition loop
(`for left < len && kind != view, left++`), fuelled. -/
def scanLF : Nat → List Entry → Nat → Nat
  | 0, _, i => i
  | fuel + 1, l, i =>
    match l[i]? with
    | none => i
    | some e => if e.Kind = SystemViewRel then i else scanLF fuel l (i + 1)

/-- The right scan (`for right >= 0 && kind == view, right--`),
fuelled. -/
def scanRF : Nat → List Entry → Int → Int
  | 0, _, j => j
  | fuel + 1, l, j =>
    if j < 0 then j
    else
      match l[j.toNat]? with
      | none => j
      | some e => if e.Kind = SystemViewRel then scanRF fuel l (j - 1) else j

/-- Swapping two positions (the source swaps `createTable[left/right]`
and `opt.tables[left/right]` in lockstep). -/
def swapIdx (l : List Entry) (i j : Nat) : List Entry :=
  match l[i]?, l[j]? with
  | some ei, some ej => (l.set i ej).set j ei
  | _, _ => l

/-- The two-pointer partition loop of `dumpData` (source lines 277-290),
fuelled (each iteration either shrinks the window or turns the left
boundary into a non-view, so `2·len + 3` fuel is never exhausted).
Returns the permuted list and the final `left`, which `dumpData` passes
to `adjustViewOrder` as `start`. -/
def partitionViewsF : Nat → List Entry → Nat → Int → List Entry × Nat
  | 0, l, left, _ => (l, left)
  | fuel + 1, l, left, right =>
    if (left : Int) < right then
      if scanRF (l.length + 1) l right ≤ (scanLF l.length l left : Int) then
        (l, scanLF l.length l left)
      else
        partitionViewsF fuel
          (swapIdx l (scanLF l.length l left)
            (scanRF (l.length + 1) l right).toNat)
          (scanLF l.length l left) (scanRF (l.length + 1) l right)
    else (l, left)

/-- The partition entry point: `left, right := 0, len(createTable)-1`. -/
def partitionViews (l : List Entry) : List Entry × Nat :=
  partitionViewsF (2 * l.length + 3) l 0 ((l.length : Int) - 1)

/-- The `viewPos` map of `adjustViewOrder`: built by ascending
assignment `viewPos[name_i] = i - start`, so for duplicate names the
last index wins.  Every queried name was inserted, so the absent case is
unreachable. -/
def goMapPos (names : List String) (name : String) : Nat :=
  names.length - 1 - List.indexOf name names.reverse

/-- The name of suffix entry `i`. -/
def nameAt (es : List Entry) (i : Nat) : String :=
  ((es[i]?).map Entry.Name).getD ""

/-- The detected reference: entry `i`'s creation text contains entry
`j`'s name, for `i ≠ j` (`strings.Count(createTable[i],
tables[j].Name) > 0`). -/
def edgeB (es : List Entry) (i j : Nat) : Bool :=
  match es[i]?, es[j]? with
  | some ei, some ej => decide (i ≠ j) && isSubstr ej.Name ei.create
  | _, _ => false

/-- `viewCount[k]++`. -/
def bumpAt (l : List Nat) (k : Nat) : List Nat := l.set k (l.getD k 0 + 1)

/-- `viewRef[k] = append(viewRef[k], x)`. -/
def appendAt (l : List (List Nat)) (k x : Nat) : List (List Nat) :=
  l.set k (l.getD k [] ++ [x])

/-- The nested graph-building loops of `adjustViewOrder` (lines
358-368), written over the i-major pair sequence: when entry `i`'s text
contains entry `j`'s name, bump `viewCount[viewPos[name_i]]` and append
`viewPos[name_i]` to `viewRef[viewPos[name_j]]`. -/
def buildLoop (es : List Entry) (names : List String) :
    List (Nat × Nat) → List Nat × List (List Nat) →
      List Nat × List (List Nat)
  | [], st => st
  | (i, j) :: rest, (cnt, ref) =>
    if edgeB es i j then
      buildLoop es names rest
        (bumpAt cnt (goMapPos names (nameAt es i)),
          appendAt ref (goMapPos names (nameAt es j))
            (goMapPos names (nameAt es i)))
    else buildLoop es names rest (cnt, ref)

/-- The pair sequence `(i, j)` for `i, j ∈ [0, n)` in the source's
iteration order. -/
def pairSeq (n : Nat) : List (Nat × Nat) :=
  (List.range n).flatMap fun i => (List.range n).map fun j => (i, j)

/-- One zero-in-degree scan step
(`if viewCount[i] == 0 && !visit[i]`): mark visited, append `i` to the
order, decrement the in-degree of every dependent in `viewRef[i]`. -/
def kahnStep (ref : List (List Nat)) (st : List Nat × List Bool × List Nat)
    (i : Nat) : List Nat × List Bool × List Nat :=
  if st.1.getD i 1 = 0 ∧ st.2.1.getD i true = false then
    ((ref.getD i []).foldl (fun c x => c.set x (c.getD x 0 - 1)) st.1,
      st.2.1.set i true, st.2.2 ++ [i])
  else st

/-- One full inner pass `for i := 0; i < n; i++`. -/
def kahnPass (ref : List (List Nat)) (n : Nat)
    (st : List Nat × List Bool × List Nat) :
    List Nat × List Bool × List Nat :=
  (List.range n).foldl (kahnStep ref) st

/-- The outer `for order < len(viewName)` loop, fuelled; `none` models
divergence (the source spins forever once no unvisited view has
in-degree zero, since the state then never changes).  `n + 1` fuel is
exact: a pass that places nothing leaves the state unchanged forever,
and a pass that places something happens at most `n` times.  The
source's `order` counter always equals `len(orderArr)`. -/
def kahnLoopF (ref : List (List Nat)) (n : Nat) :
    Nat → List Nat × List Bool × List Nat → Option (List Nat)
  | 0, _ => none
  | fuel + 1, st =>
    if n ≤ st.2.2.length then some st.2.2
    else kahnLoopF ref n fuel (kahnPass ref n st)

/-- `adjustViewOrder` (source lines 348-392) acting on the suffix
starting at `start`: build the substring-reference graph, run the
zero-in-degree scan, and rewrite the suffix in the resulting order
(`none` = the source's outer loop diverges). -/
def adjustViewOrder (l : List Entry) (start : Nat) : Option (List Entry) :=
  let es := l.drop start
  let names := es.map Entry.Name
  let n := es.length
  let built := buildLoop es names (pairSeq n)
    (List.replicate n 0, List.replicate n [])
  match kahnLoopF built.2 n (n + 1) (built.1, List.replicate n false, []) with
  | none => none
  | some ord => some (l.take start ++ ord.map fun k => es.getD k default)

/-- The reorder performed by `dumpData` before emission: the two-pointer
partition, then `adjustViewOrder` on the view suffix. -/
def reorderTables (l : List Entry) : Option (List Entry) :=
  adjustViewOrder (partitionViews l).1 (partitionViews l).2

/-- The loop invariant of the zero-in-degree scan: lengths are stable,
the visit flags mirror membership in the order built so far, every
in-degree counts the detected references to entries not yet placed, and
the order built so far is topologically sorted. -/
structure KInv (es : List Entry) (st : List Nat × List Bool × List Nat) :
    Prop where
  hc : st.1.length = es.length
  hv : st.2.1.length = es.length
  hbd : ∀ x ∈ st.2.2, x < es.length
  hnd : st.2.2.Nodup
  hvis : ∀ i, i < es.length → (st.2.1.getD i true = true ↔ i ∈ st.2.2)
  hcnt : ∀ i, i < es.length → st.1.getD i 1 =
    ((List.range es.length).filter
      fun j => edgeB es i j && decide (j ∉ st.2.2)).length
  htopo : ∀ i ∈ st.2.2, ∀ j, j < es.length → edgeB es i j = true →
    j ∈ st.2.2 ∧ st.2.2.indexOf j < st.2.2.indexOf i

/-- Two views that textually reference each other. -/
def cycleEntries : List Entry :=
  [⟨"v1", "v", "select a from v2"⟩, ⟨"v2", "v", "select a from v1"⟩]

/-- A concrete acyclic input: a table and two views, the second view
referencing the first, the first referencing the table, listed out of
dependency order. -/
def topoEntries : List Entry :=
  [⟨"t1", "r", ""⟩, ⟨"v2", "v", "uses v1 data"⟩, ⟨"v1", "v", "uses t1 data"⟩]

/-- A rank function witnessing that `topoEntries` has no reference
cycle. -/
def topoRank : String → Nat :=
  fun s => if s = "t1" then 0 else if s = "v1" then 1 else 2

/- ### Input validation performed by `main` -/

/-- Modelled from the spec: the minimum bound on `net-buffer-length`.
The constant `minNetBufferLength` is declared in a repository file not
present under `src/`; the spec records only that the budget is clamped
to a minimum/maximum bound with default 1048576 and maximum 16777216.
Its exact value does not affect any claim settled here. -/
def minNetBufferLength : Nat := 16384

/-- Modelled from the spec: the maximum bound on `net-buffer-length`
(16777216 bytes per the repository documentation). -/
def maxNetBufferLength : Nat := 16777216

/-- Error kinds surfaced by `main`'s validation phase. -/
inductive MainError where
  | invalidInput (msg : String)
  deriving DecidableEq, Repr

/-- The command-line options consumed by `main` that feed its
pre-connection validation. -/
structure OptionsIn where
  username : String
  host : String
  database : String
  tbl : String
  netBufferLength : Nat
  toCsv : Bool
  csvFieldDelimiterStr : String
  enableEscape : Bool
  deriving Repr

/-- The validated configuration reaching `dumpData`. -/
structure CheckedOptions where
  dbs : List String
  tables : List String
  emptyTables : Bool
  username : String
  netBufferLength : Nat
  csvEnable : Bool
  csvFieldDelimiter : Char
  csvEnableEscape : Bool
  deriving Repr

/-- `checkFieldDelimiter` from the source, on the character sequence of
the flag value (a Lean string is always valid UTF-8): more than one
character, no character, or the replacement character U+FFFD (Go's
`RuneError`, produced by decoding an empty string) are invalid. -/
def checkFieldDelimiter (s : String) : Except MainError Char :=
  if 1 < s.toList.length then
    .error (.invalidInput "there are multiple utf8 characters for csv field delimiter. only one utf8 character is allowed")
  else
    match s.toList with
    | [] => .error (.invalidInput "csv field delimiter is invalid utf8 character")
    | c :: _ =>
      if c.toNat = 0xFFFD then
        .error (.invalidInput "csv field delimiter is invalid utf8 character")
      else .ok c

/-- Comma-splitting with trimming as applied by `main` to the `-db` and
`-tbl` flags: split on commas, trim whitespace, drop empty entries. -/
def splitTrim (s : String) : List String :=
  ((s.splitOn ",").map String.trim).filter fun t => t ≠ ""

/-- The validation sequence of `main` (source lines 121-173), in source
order: clamp the net-buffer budget, reject an empty database option,
split the database and table lists, replace colons in the username,
reject a host containing a colon, and check the CSV field delimiter when
CSV mode is enabled.  Everything after it (connecting and dumping) is
reached only on `.ok`. -/
def mainValidate (opt : OptionsIn) : Except MainError CheckedOptions :=
  let nbl₀ := if opt.netBufferLength < minNetBufferLength then minNetBufferLength
              else opt.netBufferLength
  let nbl := if maxNetBufferLength < nbl₀ then maxNetBufferLength else nbl₀
  if opt.database.length = 0 then
    .error (.invalidInput "database must be specified")
  else
    let dbs := splitTrim opt.database
    let tables := if 0 < opt.tbl.length then splitTrim opt.tbl else []
    let emptyTables := tables = []
    let username := String.mk (opt.username.toList.map fun c => if c = ':' then '#' else c)
    if 0 < opt.host.toList.count ':' then
      .error (.invalidInput "host can not have character :")
    else if opt.toCsv then
      match checkFieldDelimiter opt.csvFieldDelimiterStr with
      | .error e => .error e
      | .ok c =>
        .ok ⟨dbs, tables, emptyTables, username, nbl, true, c, opt.enableEscape⟩
    else
      .ok ⟨dbs, tables, emptyTables, username, nbl, false, ',', opt.enableEscape⟩

/-- Observable outcome of a run as structured by `main`: on a validation
error the deferred handler reports to the diagnostic stream and exits
with status 1 before `dumpData` runs, so no dump output reaches standard
output; on success the dump (abstracted as `dump`) is written and the
process exits 0. -/
def runOutcome (opt : OptionsIn) (dump : CheckedOptions → List Nat) :
    List Nat × Nat :=
  match mainValidate opt with
  | .error _ => ([], 1)
  | .ok c => (dump c, 0)

/- ### Theorems for claims C7, C8, C9, C10 -/

/-- **C8** — Escaping the NULL sentinel is a no-op: `escapeString`
applied to the CSV field equal to the sentinel string backslash-N
returns it unchanged, so escaping a NULL-encoded field is idempotent. -/
theorem escapeString_nullSentinel : escapeString "\\N" = "\\N" := by
  simp [escapeString]

/-- Evaluation of `convertValue` on a non-empty value under a `float`
type tag, following the source's branch structure. -/
theorem convertValue_float_eq (typ : String) (ht : toLowerAscii typ = "float")
    (b : Nat) (rest : List Nat) :
    convertValue (some (b :: rest)) typ =
      if 48 ≤ b ∧ b ≤ 57 then some (b :: rest)
      else if b = 45 then
        (match rest with
         | [] => none
         | b2 :: _ =>
           if 48 ≤ b2 ∧ b2 ≤ 57 then some (b :: rest)
           else some (39 :: ((b :: rest) ++ [39])))
      else some (39 :: ((b :: rest) ++ [39])) := by
  have hne : toLowerAscii typ ≠ "" := by rw [ht]; decide
  have hnv : ¬(toLowerAscii typ = "varchar" ∧
      (b :: rest = strBytes "true" ∨ b :: rest = strBytes "false")) := by
    rw [ht]; intro hc; exact absurd hc.1 (by decide)
  simp only [convertValue, if_neg hne, if_neg hnv, if_pos ht]

/-- `convertValue` never reaches the float branch's byte reads under any
other type tag, so it always returns a literal there. -/
theorem convertValue_nonfloat_isSome (typ : String)
    (hfloat : toLowerAscii typ ≠ "float") (ret : List Nat) :
    (convertValue (some ret) typ).isSome = true := by
  match ret with
  | [] =>
    simp only [convertValue]
    repeat' split
    all_goals simp_all
  | b :: rest =>
    simp only [convertValue]
    repeat' split
    all_goals simp_all

/-- **C7 (amended)** — For every non-NULL raw value with a type tag whose
ASCII lowering is `float`, **provided the value is non-empty and is not
the single byte `-`** (on those two the source indexes out of range, see
`convertValue_float_empty_panics`), `convertValue` returns the raw text
unchanged when the text starts with a digit or with `-` followed by a
digit, and otherwise returns the text wrapped in single quotes. -/
theorem convertValue_float_spec (typ : String) (ht : toLowerAscii typ = "float")
    (ret : List Nat) (h1 : ret ≠ []) (h2 : ret ≠ [45]) :
    convertValue (some ret) typ =
      some (if startsNumeric ret then ret else 39 :: (ret ++ [39])) := by
  match ret, h1 with
  | b :: rest, _ =>
    simp only [convertValue, ht, startsNumeric]
    norm_num
    by_cases hd : 48 ≤ b ∧ b ≤ 57
    · simp [hd]
    · by_cases hm : b = 45
      · subst hm
        match rest with
        | [] => exact absurd rfl h2
        | b2 :: rest2 =>
          by_cases hd2 : 48 ≤ b2 ∧ b2 ≤ 57 <;> simp [hd, hd2]
      · simp [hd, hm]

/-- Witness for `convertValue_float_spec` at the value `NaN` with the
upper-case tag `FLOAT`. -/
theorem convertValue_float_spec_witness :
    convertValue (some (strBytes "NaN")) "FLOAT" =
      some (if startsNumeric (strBytes "NaN") then strBytes "NaN"
            else 39 :: (strBytes "NaN" ++ [39])) :=
  convertValue_float_spec "FLOAT" (by decide) (strBytes "NaN")
    (by decide) (by decide)

/-- **C7 (counterexample)** — The claim as stated fails on the one-byte
non-NULL value `-` with type tag `float`: it neither starts with a digit
nor with `-digit`, so the claim predicts the quoted literal `'-'`, but
the source evaluates `retStr[1]` on a one-byte string, an out-of-bounds
index (modelled as `none`). -/
theorem convertValue_float_dash_panics :
    convertValue (some [45]) "float" = none := by decide

/-- **C10 (counterexample)** — `convertValue` is not total: on the empty
non-NULL value with type tag `float` the source evaluates `retStr[0]` on
an empty string, an out-of-bounds index (modelled as `none`). -/
theorem convertValue_float_empty_panics :
    convertValue (some []) "float" = none := by decide

/-- **C10 (amended)** — `convertValue` returns a literal for every
non-NULL raw byte sequence and every type tag **except** when the type
tag lowers to `float` and the value is empty or the single byte `-`,
where the float branch's byte reads are out of bounds. -/
theorem convertValue_total (v : Option (List Nat)) (typ : String)
    (h : toLowerAscii typ = "float" → v ≠ some [] ∧ v ≠ some [45]) :
    (convertValue v typ).isSome = true := by
  match v with
  | none => simp [convertValue]
  | some ret =>
    by_cases hfloat : toLowerAscii typ = "float"
    · match ret, (h hfloat).1 with
      | b :: rest, _ =>
        rw [convertValue_float_eq typ hfloat b rest]
        by_cases hd : 48 ≤ b ∧ b ≤ 57
        · simp [hd]
        · by_cases hm : b = 45
          · subst hm
            match rest, (h hfloat).2 with
            | [], hnm => exact absurd rfl hnm
            | b2 :: rest2, _ =>
              by_cases hd2 : 48 ≤ b2 ∧ b2 ≤ 57 <;> simp [hd, hd2]
          · simp [hd, hm]
    · exact convertValue_nonfloat_isSome typ hfloat ret

/-- Witness for `convertValue_total` at a varchar value. -/
theorem convertValue_total_witness :
    (convertValue (some (strBytes "a'b")) "varchar").isSome = true :=
  convertValue_total (some (strBytes "a'b")) "varchar" (by decide)

/-- **C9** — If the database option is the empty string, or the host
string contains the character `:`, `main`'s validation fails with an
`InvalidInput` error; the run therefore exits with status 1 and writes
no dump output, whatever the dump phase would have produced. -/
theorem mainValidate_rejects (opt : OptionsIn)
    (h : opt.database = "" ∨ 0 < opt.host.toList.count ':') :
    (∃ msg, mainValidate opt = .error (.invalidInput msg)) ∧
      ∀ dump, runOutcome opt dump = ([], 1) := by
  have hmain : ∃ msg, mainValidate opt = .error (.invalidInput msg) := by
    rcases h with hdb | hhost
    · exact ⟨"database must be specified", by simp [mainValidate, hdb]⟩
    · by_cases hdb : opt.database.length = 0
      · exact ⟨"database must be specified", by simp [mainValidate, hdb]⟩
      · have hmem : ':' ∈ opt.host.data := by
          by_contra hno
          rw [show opt.host.toList = opt.host.data from rfl,
            List.count_eq_zero_of_not_mem hno] at hhost
          exact Nat.lt_irrefl 0 hhost
        exact ⟨"host can not have character :", by simp [mainValidate, hdb, hmem]⟩
  refine ⟨hmain, fun dump => ?_⟩
  rcases hmain with ⟨msg, hm⟩
  simp [runOutcome, hm]

/-- Witness for `mainValidate_rejects`: an unspecified database. -/
theorem mainValidate_rejects_witness :
    (∃ msg, mainValidate ⟨"dump", "127.0.0.1", "", "", 1048576, false, ",", false⟩ =
        .error (.invalidInput msg)) ∧
      ∀ dump, runOutcome ⟨"dump", "127.0.0.1", "", "", 1048576, false, ",", false⟩ dump = ([], 1) :=
  mainValidate_rejects _ (Or.inl rfl)

theorem cons_set_perm {α : Type} (t : List α) (a : α) (j : Nat) (h : j < t.length) :
    (t[j] :: t.set j a).Perm (a :: t) := by
  have hs : t.set j a = t.take j ++ a :: t.drop (j+1) :=
    List.set_eq_take_cons_drop a h
  have ht : t = t.take j ++ t[j] :: t.drop (j+1) := by
    conv_lhs => rw [← List.take_append_drop j t]
    rw [List.getElem_cons_drop]
  rw [hs]
  have p1 : (t[j] :: (t.take j ++ a :: t.drop (j+1))).Perm
      (t[j] :: a :: (t.take j ++ t.drop (j+1))) :=
    List.Perm.cons _ List.perm_middle
  have p2 : (t[j] :: a :: (t.take j ++ t.drop (j+1))).Perm
      (a :: t[j] :: (t.take j ++ t.drop (j+1))) := List.Perm.swap a _ _
  have p3 : (a :: t[j] :: (t.take j ++ t.drop (j+1))).Perm
      (a :: (t.take j ++ t[j] :: t.drop (j+1))) :=
    List.Perm.cons a List.perm_middle.symm
  have h4 := (p1.trans p2).trans p3
  rw [← ht] at h4
  exact h4

theorem set_set_perm {α : Type} (l : List α) (i j : Nat) (hi : i < l.length)
    (hj : j < l.length) : ((l.set i l[j]).set j l[i]).Perm l := by
  induction l generalizing i j with
  | nil => simp at hi
  | cons a t ih =>
    match i, j with
    | 0, 0 => simpa using List.Perm.refl _
    | 0, j'+1 =>
      simp only [List.set_cons_zero, List.getElem_cons_succ, List.set_cons_succ,
        List.getElem_cons_zero]
      exact cons_set_perm t a j' (by simpa using hj)
    | i'+1, 0 =>
      simp only [List.set_cons_succ, List.getElem_cons_zero, List.set_cons_zero,
        List.getElem_cons_succ]
      exact ((cons_set_perm t a i' (by simpa using hi)).symm.trans
        (List.Perm.refl _)).symm
    | i'+1, j'+1 =>
      simp only [List.set_cons_succ, List.getElem_cons_succ]
      exact List.Perm.cons a (ih i' j' (by simpa using hi) (by simpa using hj))

theorem swapIdx_perm (l : List Entry) (i j : Nat) : (swapIdx l i j).Perm l := by
  unfold swapIdx
  match h1 : l[i]?, h2 : l[j]? with
  | none, _ => exact List.Perm.refl l
  | some ei, none => exact List.Perm.refl l
  | some ei, some ej =>
    have hi : i < l.length := by
      by_contra hc
      simp [List.getElem?_eq_none (Nat.le_of_not_lt hc)] at h1
    have hj : j < l.length := by
      by_contra hc
      simp [List.getElem?_eq_none (Nat.le_of_not_lt hc)] at h2
    have hei : ei = l[i] := by
      have := List.getElem?_eq_getElem hi
      rw [h1] at this
      exact Option.some.inj this
    have hej : ej = l[j] := by
      have := List.getElem?_eq_getElem hj
      rw [h2] at this
      exact Option.some.inj this
    subst hei hej
    exact set_set_perm l i j hi hj

theorem swapIdx_length (l : List Entry) (i j : Nat) :
    (swapIdx l i j).length = l.length := (swapIdx_perm l i j).length_eq

/-- What the left scan guarantees: it only moves right, never past the
length, everything strictly before the stop is a non-view, and the stop
is either out of range or a view. -/
theorem scanLF_spec (fuel : Nat) (l : List Entry) (i : Nat)
    (hfuel : l.length ≤ fuel + i) :
    i ≤ scanLF fuel l i ∧
    (i ≤ l.length → scanLF fuel l i ≤ l.length) ∧
    (∀ k, i ≤ k → k < scanLF fuel l i →
      ∃ e, l[k]? = some e ∧ e.Kind ≠ SystemViewRel) ∧
    (l.length ≤ scanLF fuel l i ∨
      ∃ e, l[scanLF fuel l i]? = some e ∧ e.Kind = SystemViewRel) := by
  induction fuel generalizing i with
  | zero =>
    simp only [scanLF]
    exact ⟨Nat.le_refl i, fun h => h,
      fun k hk1 hk2 => absurd hk2 (by omega), Or.inl (by omega)⟩
  | succ f ih =>
    cases hm : l[i]? with
    | none =>
      have hlen : l.length ≤ i := by
        by_contra hc
        simp [List.getElem?_eq_getElem (Nat.lt_of_not_le hc)] at hm
      simp only [scanLF, hm]
      exact ⟨Nat.le_refl i, fun h => h,
        fun k hk1 hk2 => absurd hk2 (by omega), Or.inl hlen⟩
    | some e =>
      have hi : i < l.length := by
        by_contra hc
        simp [List.getElem?_eq_none (Nat.le_of_not_lt hc)] at hm
      by_cases hk : e.Kind = SystemViewRel
      · simp only [scanLF, hm, if_pos hk]
        exact ⟨Nat.le_refl i, fun h => h,
          fun k hk1 hk2 => absurd hk2 (by omega), Or.inr ⟨e, rfl, hk⟩⟩
      · simp only [scanLF, hm, if_neg hk]
        obtain ⟨h1, h2, h3, h4⟩ := ih (i + 1) (by omega)
        refine ⟨by omega, fun _ => h2 (by omega), ?_, h4⟩
        intro k hk1 hk2
        rcases Nat.eq_or_lt_of_le hk1 with he | hlt
        · exact ⟨e, he ▸ hm, hk⟩
        · exact h3 k hlt hk2

/-- What the right scan guarantees: it only moves left, stays at or
above `-1`, everything strictly after the stop (up to the start) is a
view, and the stop is `-1` or a non-view. -/
theorem scanRF_spec (fuel : Nat) (l : List Entry) (j : Int)
    (hj : -1 ≤ j) (hjl : j < (l.length : Int)) (hfuel : j + 1 < (fuel : Int)) :
    scanRF fuel l j ≤ j ∧ -1 ≤ scanRF fuel l j ∧
    (∀ k : Nat, scanRF fuel l j < (k : Int) → (k : Int) ≤ j →
      ∃ e, l[k]? = some e ∧ e.Kind = SystemViewRel) ∧
    (scanRF fuel l j = -1 ∨
      ∃ e, l[(scanRF fuel l j).toNat]? = some e ∧ e.Kind ≠ SystemViewRel) := by
  induction fuel generalizing j with
  | zero => exact absurd hfuel (by omega)
  | succ f ih =>
    by_cases hneg : j < 0
    · simp only [scanRF, if_pos hneg]
      exact ⟨Int.le_refl j, hj, fun k hk1 hk2 => absurd hk2 (by omega),
        Or.inl (by omega)⟩
    · have hjn : j.toNat < l.length := by omega
      cases hm : l[j.toNat]? with
      | none => simp [List.getElem?_eq_getElem hjn] at hm
      | some e =>
        by_cases hk : e.Kind = SystemViewRel
        · simp only [scanRF, if_neg hneg, hm, if_pos hk]
          obtain ⟨h1, h2, h3, h4⟩ := ih (j - 1) (by omega) (by omega) (by omega)
          refine ⟨by omega, h2, ?_, h4⟩
          intro k hk1 hk2
          by_cases hkj : (k : Int) ≤ j - 1
          · exact h3 k hk1 hkj
          · have : k = j.toNat := by omega
            exact ⟨e, this ▸ hm, hk⟩
        · simp only [scanRF, if_neg hneg, hm, if_neg hk]
          exact ⟨Int.le_refl j, hj, fun k hk1 hk2 => absurd hk2 (by omega),
            Or.inr ⟨e, rfl, hk⟩⟩

/-- Unfolding `swapIdx` when both positions are present. -/
theorem swapIdx_eq (l : List Entry) (i j : Nat) (ei ej : Entry)
    (hi : l[i]? = some ei) (hj : l[j]? = some ej) :
    swapIdx l i j = (l.set i ej).set j ei := by
  unfold swapIdx
  rw [hi, hj]

/-- The partition loop invariant, preserved from one swap to the next:
starting from a state whose `left` points at a non-view and whose
`right` points at a view (as every post-swap state does), the loop ends
with the non-views exactly before the returned boundary. -/
theorem partitionViewsF_spec (fuel : Nat) (l : List Entry) (left : Nat) (r : Int)
    (hlr : (left : Int) < r) (hrl : r < (l.length : Int))
    (hpre : ∀ k < left, ∃ e, l[k]? = some e ∧ e.Kind ≠ SystemViewRel)
    (hsuf : ∀ k : Nat, r < (k : Int) → k < l.length →
      ∃ e, l[k]? = some e ∧ e.Kind = SystemViewRel)
    (hL : ∃ e, l[left]? = some e ∧ e.Kind ≠ SystemViewRel)
    (hR : ∃ e, l[r.toNat]? = some e ∧ e.Kind = SystemViewRel)
    (hfuel : r + 1 - left ≤ (fuel : Int)) :
    (partitionViewsF fuel l left r).2 ≤ l.length ∧
    (partitionViewsF fuel l left r).1.length = l.length ∧
    (∀ k < (partitionViewsF fuel l left r).2,
      ∃ e, (partitionViewsF fuel l left r).1[k]? = some e ∧
        e.Kind ≠ SystemViewRel) ∧
    (∀ k, (partitionViewsF fuel l left r).2 ≤ k → k < l.length →
      ∃ e, (partitionViewsF fuel l left r).1[k]? = some e ∧
        e.Kind = SystemViewRel) := by
  induction fuel generalizing l left r with
  | zero => exact absurd hfuel (by omega)
  | succ f ih =>
    obtain ⟨hL1, hL2, hL3, hL4⟩ := scanLF_spec l.length l left (by omega)
    obtain ⟨hR1, hR2, hR3, hR4⟩ :=
      scanRF_spec (l.length + 1) l r (by omega) hrl (by omega)
    obtain ⟨e0, he0, hnv0⟩ := hL
    obtain ⟨e1, he1, hv1⟩ := hR
    have hLlen : scanLF l.length l left ≤ l.length := hL2 (by omega)
    have hLgt : left < scanLF l.length l left := by
      rcases Nat.eq_or_lt_of_le hL1 with he | h
      · exfalso
        rcases hL4 with hlen | ⟨e, he', hv⟩
        · omega
        · rw [← he, he0] at he'
          have he2 : e0 = e := Option.some.inj he'
          rw [← he2] at hv
          exact hnv0 hv
      · exact h
    have hRlt : scanRF (l.length + 1) l r < r := by
      rcases Int.lt_or_le (scanRF (l.length + 1) l r) r with h | h
      · exact h
      · exfalso
        have : scanRF (l.length + 1) l r = r := le_antisymm hR1 h
        rcases hR4 with hneg | ⟨e, he', hnv⟩
        · omega
        · rw [this, he1] at he'
          exact hnv (Option.some.inj he' ▸ hv1)
    by_cases hbr : scanRF (l.length + 1) l r ≤ (scanLF l.length l left : Int)
    · simp only [partitionViewsF, if_pos hlr, if_pos hbr]
      refine ⟨hLlen, by trivial, ?_, ?_⟩
      · intro k hk
        by_cases hkl : k < left
        · exact hpre k hkl
        · exact hL3 k (by omega) hk
      · intro k hk1 hk2
        by_cases hkr : r < (k : Int)
        · exact hsuf k hkr hk2
        · by_cases hkR : scanRF (l.length + 1) l r < (k : Int)
          · exact hR3 k hkR (by omega)
          · have hkL : k = scanLF l.length l left := by omega
            rcases hL4 with hlen | ⟨e, he', hv⟩
            · omega
            · exact ⟨e, hkL ▸ he', hv⟩
    · have hLR : (scanLF l.length l left : Int) < scanRF (l.length + 1) l r := by
        omega
      have hRpos : (0 : Int) ≤ scanRF (l.length + 1) l r := by omega
      have hRlen : (scanRF (l.length + 1) l r).toNat < l.length := by omega
      have hLlt : scanLF l.length l left < l.length := by omega
      obtain ⟨eL, heL, hvL⟩ : ∃ e, l[scanLF l.length l left]? = some e ∧
          e.Kind = SystemViewRel := by
        rcases hL4 with hlen | h
        · omega
        · exact h
      obtain ⟨eR, heR, hnR⟩ : ∃ e,
          l[(scanRF (l.length + 1) l r).toNat]? = some e ∧
          e.Kind ≠ SystemViewRel := by
        rcases hR4 with hneg | h
        · omega
        · exact h
      simp only [partitionViewsF, if_pos hlr, if_neg hbr]
      rw [swapIdx_eq l _ _ eL eR heL heR]
      have hne : scanLF l.length l left ≠ (scanRF (l.length + 1) l r).toNat := by
        omega
      have hlen' : ((l.set (scanLF l.length l left) eR).set
          ((scanRF (l.length + 1) l r).toNat) eL).length = l.length := by simp
      have hgetL : ((l.set (scanLF l.length l left) eR).set
          ((scanRF (l.length + 1) l r).toNat) eL)[scanLF l.length l left]? =
          some eR := by
        rw [List.getElem?_set_ne (by omega), List.getElem?_set_self (by omega)]
      have hgetR : ((l.set (scanLF l.length l left) eR).set
          ((scanRF (l.length + 1) l r).toNat) eL)[(scanRF (l.length + 1) l
          r).toNat]? = some eL := by
        rw [List.getElem?_set_self (by simpa using hRlen)]
      have hgetO : ∀ k, k ≠ scanLF l.length l left →
          k ≠ (scanRF (l.length + 1) l r).toNat →
          ((l.set (scanLF l.length l left) eR).set
            ((scanRF (l.length + 1) l r).toNat) eL)[k]? = l[k]? := by
        intro k hk1 hk2
        rw [List.getElem?_set_ne (fun h => hk2 h.symm),
          List.getElem?_set_ne (fun h => hk1 h.symm)]
      obtain ⟨ih1, ih2, ih3, ih4⟩ := ih
        ((l.set (scanLF l.length l left) eR).set
          ((scanRF (l.length + 1) l r).toNat) eL)
        (scanLF l.length l left) (scanRF (l.length + 1) l r)
        hLR (by rw [hlen']; omega)
        (by
          intro k hk
          rw [hgetO k (by omega) (by omega)]
          by_cases hkl : k < left
          · exact hpre k hkl
          · exact hL3 k (by omega) hk)
        (by
          intro k hk1 hk2
          rw [hlen'] at hk2
          rw [hgetO k (by omega) (by omega)]
          by_cases hkr : r < (k : Int)
          · exact hsuf k hkr hk2
          · exact hR3 k hk1 (by omega))
        ⟨eR, hgetL, hnR⟩ ⟨eL, hgetR, hvL⟩
        (by omega)
      rw [hlen'] at ih2 ih4
      exact ⟨by omega, ih2, ih3, ih4⟩

theorem partitionViewsF_perm (fuel : Nat) (l : List Entry) (left : Nat)
    (r : Int) : (partitionViewsF fuel l left r).1.Perm l := by
  induction fuel generalizing l left r with
  | zero => exact List.Perm.refl l
  | succ f ih =>
    simp only [partitionViewsF]
    by_cases h1 : (left : Int) < r
    · rw [if_pos h1]
      by_cases h2 : scanRF (l.length + 1) l r ≤ (scanLF l.length l left : Int)
      · rw [if_pos h2]
      · rw [if_neg h2]
        exact (ih _ _ _).trans (swapIdx_perm _ _ _)
    · rw [if_neg h1]

theorem partitionViews_perm (l : List Entry) : (partitionViews l).1.Perm l :=
  partitionViewsF_perm _ l 0 _

/-- Correctness of the two-pointer partition for lists of length at
least two: everything before the returned boundary is a non-view and
everything from the boundary on is a view.  (With a single non-view
entry the returned boundary is `0` although the entry is not a view, so
the bound is tight.) -/
theorem partitionViewsF_initial (f : Nat) (l : List Entry) (h2 : 2 ≤ l.length)
    (hf : (l.length : Int) ≤ (f : Int)) :
    (partitionViewsF (f + 1) l 0 ((l.length : Int) - 1)).2 ≤ l.length ∧
    (∀ k < (partitionViewsF (f + 1) l 0 ((l.length : Int) - 1)).2,
      ∃ e, (partitionViewsF (f + 1) l 0 ((l.length : Int) - 1)).1[k]? = some e ∧
        e.Kind ≠ SystemViewRel) ∧
    (∀ k, (partitionViewsF (f + 1) l 0 ((l.length : Int) - 1)).2 ≤ k →
      k < l.length →
      ∃ e, (partitionViewsF (f + 1) l 0 ((l.length : Int) - 1)).1[k]? = some e ∧
        e.Kind = SystemViewRel) := by
  obtain ⟨hL1, hL2, hL3, hL4⟩ := scanLF_spec l.length l 0 (by omega)
  obtain ⟨hR1, hR2, hR3, hR4⟩ :=
    scanRF_spec (l.length + 1) l ((l.length : Int) - 1) (by omega) (by omega)
      (by omega)
  have hLlen : scanLF l.length l 0 ≤ l.length := hL2 (by omega)
  have hcond : ((0 : Nat) : Int) < (l.length : Int) - 1 := by omega
  by_cases hbr : scanRF (l.length + 1) l ((l.length : Int) - 1) ≤
      (scanLF l.length l 0 : Int)
  · simp only [partitionViewsF, if_pos hcond, if_pos hbr]
    refine ⟨hLlen, ?_, ?_⟩
    · intro k hk
      exact hL3 k (by omega) hk
    · intro k hk1 hk2
      by_cases hkR : scanRF (l.length + 1) l ((l.length : Int) - 1) < (k : Int)
      · exact hR3 k hkR (by omega)
      · have hkL : k = scanLF l.length l 0 := by omega
        rcases hL4 with hlen | ⟨e, he', hv⟩
        · omega
        · exact ⟨e, hkL ▸ he', hv⟩
  · have hLR : (scanLF l.length l 0 : Int) <
        scanRF (l.length + 1) l ((l.length : Int) - 1) := by omega
    have hRpos : (0 : Int) ≤ scanRF (l.length + 1) l ((l.length : Int) - 1) := by
      omega
    have hRlen : (scanRF (l.length + 1) l ((l.length : Int) - 1)).toNat <
        l.length := by omega
    have hLlt : scanLF l.length l 0 < l.length := by omega
    obtain ⟨eL, heL, hvL⟩ : ∃ e, l[scanLF l.length l 0]? = some e ∧
        e.Kind = SystemViewRel := by
      rcases hL4 with hlen | h
      · omega
      · exact h
    obtain ⟨eR, heR, hnR⟩ : ∃ e,
        l[(scanRF (l.length + 1) l ((l.length : Int) - 1)).toNat]? = some e ∧
        e.Kind ≠ SystemViewRel := by
      rcases hR4 with hneg | h
      · omega
      · exact h
    simp only [partitionViewsF, if_pos hcond, if_neg hbr]
    rw [swapIdx_eq l _ _ eL eR heL heR]
    have hlen' : ((l.set (scanLF l.length l 0) eR).set
        ((scanRF (l.length + 1) l ((l.length : Int) - 1)).toNat) eL).length =
        l.length := by simp
    have hgetL : ((l.set (scanLF l.length l 0) eR).set
        ((scanRF (l.length + 1) l ((l.length : Int) - 1)).toNat)
        eL)[scanLF l.length l 0]? = some eR := by
      rw [List.getElem?_set_ne (by omega), List.getElem?_set_self (by omega)]
    have hgetR : ((l.set (scanLF l.length l 0) eR).set
        ((scanRF (l.length + 1) l ((l.length : Int) - 1)).toNat)
        eL)[(scanRF (l.length + 1) l ((l.length : Int) - 1)).toNat]? =
        some eL := by
      rw [List.getElem?_set_self (by simpa using hRlen)]
    have hgetO : ∀ k, k ≠ scanLF l.length l 0 →
        k ≠ (scanRF (l.length + 1) l ((l.length : Int) - 1)).toNat →
        ((l.set (scanLF l.length l 0) eR).set
          ((scanRF (l.length + 1) l ((l.length : Int) - 1)).toNat) eL)[k]? =
        l[k]? := by
      intro k hk1 hk2
      rw [List.getElem?_set_ne (fun h => hk2 h.symm),
        List.getElem?_set_ne (fun h => hk1 h.symm)]
    obtain ⟨ih1, ih2, ih3, ih4⟩ := partitionViewsF_spec f
      ((l.set (scanLF l.length l 0) eR).set
        ((scanRF (l.length + 1) l ((l.length : Int) - 1)).toNat) eL)
      (scanLF l.length l 0) (scanRF (l.length + 1) l ((l.length : Int) - 1))
      hLR (by rw [hlen']; omega)
      (by
        intro k hk
        rw [hgetO k (by omega) (by omega)]
        exact hL3 k (by omega) hk)
      (by
        intro k hk1 hk2
        rw [hlen'] at hk2
        rw [hgetO k (by omega) (by omega)]
        exact hR3 k hk1 (by omega))
      ⟨eR, hgetL, hnR⟩ ⟨eL, hgetR, hvL⟩
      (by omega)
    rw [hlen'] at ih4
    exact ⟨by omega, ih3, ih4⟩

/-- Correctness of the partition entry point for lists of length at
least two. -/
theorem partitionViews_correct (l : List Entry) (h2 : 2 ≤ l.length) :
    (partitionViews l).2 ≤ l.length ∧
    (∀ k < (partitionViews l).2,
      ∃ e, (partitionViews l).1[k]? = some e ∧ e.Kind ≠ SystemViewRel) ∧
    (∀ k, (partitionViews l).2 ≤ k → k < l.length →
      ∃ e, (partitionViews l).1[k]? = some e ∧ e.Kind = SystemViewRel) :=
  partitionViewsF_initial (2 * l.length + 2) l h2 (by omega)

/-- Looking a name up in the position map built by ascending insertion
gives the index back when the suffix names are distinct. -/
theorem goMapPos_nameAt (es : List Entry) (hnd : (es.map Entry.Name).Nodup)
    (i : Nat) (hi : i < es.length) :
    goMapPos (es.map Entry.Name) (nameAt es i) = i := by
  have hlen : (es.map Entry.Name).length = es.length := by simp
  have hmi : i < (es.map Entry.Name).length := by omega
  have hri : es.length - 1 - i < (es.map Entry.Name).reverse.length := by
    simp
    omega
  have hni : nameAt es i = (es.map Entry.Name).get ⟨i, hmi⟩ := by
    simp [nameAt, List.getElem?_eq_getElem hi]
  have hget : (es.map Entry.Name).reverse.get ⟨es.length - 1 - i, hri⟩ =
      (es.map Entry.Name).get ⟨i, hmi⟩ := by
    simp only [List.get_eq_getElem]
    rw [List.getElem_reverse]
    congr 1
    simp
    omega
  have hidx : (es.map Entry.Name).reverse.indexOf (nameAt es i) =
      es.length - 1 - i := by
    rw [hni, ← hget]
    simp only [List.get_eq_getElem]
    exact List.indexOf_getElem (List.nodup_reverse.mpr hnd) _ _
  unfold goMapPos
  rw [hidx, hlen]
  omega

theorem getD_set_self {α : Type} (l : List α) (i : Nat) (h : i < l.length)
    (a d : α) : (l.set i a).getD i d = a := by
  rw [List.getD_eq_getElem?_getD, List.getElem?_set_self h]
  rfl

theorem getD_set_ne {α : Type} (l : List α) (i j : Nat) (h : i ≠ j)
    (a d : α) : (l.set i a).getD j d = l.getD j d := by
  rw [List.getD_eq_getElem?_getD, List.getElem?_set_ne h,
    ← List.getD_eq_getElem?_getD]

/-- Accounting for the graph-building fold: with distinct suffix names,
processing a pair list adds to the in-degree of `p` one unit per
detected edge out of `p`, and appends to the reference list of `p` the
source of every detected edge into `p`, in order. -/
theorem buildLoop_char (es : List Entry) (hnd : (es.map Entry.Name).Nodup)
    (ps : List (Nat × Nat)) (hps : ∀ q ∈ ps, q.1 < es.length ∧ q.2 < es.length)
    (cnt : List Nat) (ref : List (List Nat))
    (hc : cnt.length = es.length) (hr : ref.length = es.length) :
    (buildLoop es (es.map Entry.Name) ps (cnt, ref)).1.length = es.length ∧
    (buildLoop es (es.map Entry.Name) ps (cnt, ref)).2.length = es.length ∧
    ∀ p, p < es.length →
      (buildLoop es (es.map Entry.Name) ps (cnt, ref)).1.getD p 0 =
        cnt.getD p 0 +
          (ps.filter fun q => decide (q.1 = p) && edgeB es q.1 q.2).length ∧
      (buildLoop es (es.map Entry.Name) ps (cnt, ref)).2.getD p [] =
        ref.getD p [] ++
          (ps.filter fun q => edgeB es q.1 q.2 && decide (q.2 = p)).map
            Prod.fst := by
  induction ps generalizing cnt ref with
  | nil =>
    refine ⟨hc, hr, fun p hp => ?_⟩
    simp [buildLoop]
  | cons q rest ih =>
    obtain ⟨i, j⟩ := q
    have hij := hps (i, j) (List.mem_cons_self _ _)
    have hi : i < es.length := hij.1
    have hj : j < es.length := hij.2
    have hrest : ∀ q ∈ rest, q.1 < es.length ∧ q.2 < es.length :=
      fun q hq => hps q (List.mem_cons_of_mem _ hq)
    by_cases hE : edgeB es i j = true
    · have hstep : buildLoop es (es.map Entry.Name) ((i, j) :: rest)
          (cnt, ref) = buildLoop es (es.map Entry.Name) rest
          (bumpAt cnt i, appendAt ref j i) := by
        simp only [buildLoop, hE, if_pos, goMapPos_nameAt es hnd i hi,
          goMapPos_nameAt es hnd j hj]
      rw [hstep]
      have hc' : (bumpAt cnt i).length = es.length := by simp [bumpAt, hc]
      have hr' : (appendAt ref j i).length = es.length := by
        simp [appendAt, hr]
      obtain ⟨ih1, ih2, ih3⟩ := ih hrest (bumpAt cnt i) (appendAt ref j i)
        hc' hr'
      refine ⟨ih1, ih2, fun p hp => ?_⟩
      obtain ⟨ha, hb⟩ := ih3 p hp
      constructor
      · rw [ha]
        by_cases hip : i = p
        · subst hip
          rw [bumpAt, getD_set_self cnt i (by omega)]
          simp [hE]
          omega
        · rw [bumpAt, getD_set_ne cnt i p hip]
          simp [hip]
      · rw [hb]
        by_cases hjp : j = p
        · subst hjp
          rw [appendAt, getD_set_self ref j (by omega)]
          simp [hE]
        · rw [appendAt, getD_set_ne ref j p hjp]
          simp [hjp, Bool.and_comm]
    · have hE' : edgeB es i j = false := by
        cases h : edgeB es i j
        · rfl
        · exact absurd h hE
      have hstep : buildLoop es (es.map Entry.Name) ((i, j) :: rest)
          (cnt, ref) = buildLoop es (es.map Entry.Name) rest (cnt, ref) := by
        simp only [buildLoop, hE', Bool.false_eq_true, if_neg, ite_false]
      rw [hstep]
      obtain ⟨ih1, ih2, ih3⟩ := ih hrest cnt ref hc hr
      refine ⟨ih1, ih2, fun p hp => ?_⟩
      obtain ⟨ha, hb⟩ := ih3 p hp
      refine ⟨?_, ?_⟩
      · rw [ha]
        simp [hE']
      · rw [hb]
        simp [hE']

theorem flatMap_single {α : Type} (L : List Nat) (hnd : L.Nodup) (p : Nat)
    (hp : p ∈ L) (g : Nat → List α)
    (hg0 : ∀ i ∈ L, i ≠ p → g i = []) : L.flatMap g = g p := by
  induction L with
  | nil => simp at hp
  | cons a t ih =>
    rw [List.flatMap_cons]
    by_cases hap : a = p
    · subst hap
      have ht : ∀ i ∈ t, g i = [] := by
        intro i hi
        exact hg0 i (List.mem_cons_of_mem _ hi)
          (fun h => (List.nodup_cons.mp hnd).1 (h ▸ hi))
      have : t.flatMap g = [] := by
        rw [List.flatMap_eq_nil_iff]
        exact ht
      rw [this, List.append_nil]
    · rw [hg0 a (List.mem_cons_self _ _) hap, List.nil_append]
      exact ih (List.nodup_cons.mp hnd).2
        ((List.mem_cons.mp hp).resolve_left (fun h => hap h.symm))
        (fun i hi => hg0 i (List.mem_cons_of_mem _ hi))

theorem filter_and_eq_single (L : List Nat) (hnd : L.Nodup) (p : Nat)
    (hp : p ∈ L) (c : Nat → Bool) :
    (L.filter fun j => c j && decide (j = p)) =
      if c p then [p] else [] := by
  induction L with
  | nil => simp at hp
  | cons a t ih =>
    by_cases hap : a = p
    · subst hap
      have hnt : a ∉ t := (List.nodup_cons.mp hnd).1
      have ht : t.filter (fun j => c j && decide (j = a)) = [] := by
        rw [List.filter_eq_nil_iff]
        intro j hj
        simp only [Bool.and_eq_true, decide_eq_true_eq, not_and]
        intro _ hja
        exact hnt (hja ▸ hj)
      cases hca : c a
      · simp [List.filter_cons, hca, ht]
      · simp [List.filter_cons, hca, ht]
    · rw [List.filter_cons]
      have : (c a && decide (a = p)) = false := by
        simp [hap]
      rw [this]
      simp only [Bool.false_eq_true, if_neg]
      exact ih (List.nodup_cons.mp hnd).2
        ((List.mem_cons.mp hp).resolve_left (fun h => hap h.symm))

theorem flatMap_ite_filter (L : List Nat) (c : Nat → Bool) :
    (L.flatMap fun i => if c i then [i] else []) = L.filter c := by
  induction L with
  | nil => simp
  | cons a t ih =>
    rw [List.flatMap_cons, ih, List.filter_cons]
    cases hca : c a <;> simp [hca]

theorem pairSeq_mem (n : Nat) (q : Nat × Nat) (hq : q ∈ pairSeq n) :
    q.1 < n ∧ q.2 < n := by
  simp only [pairSeq, List.mem_flatMap, List.mem_map, List.mem_range] at hq
  obtain ⟨i, hi, j, hj, rfl⟩ := hq
  exact ⟨hi, hj⟩

theorem pairSeq_filter_fst (n p : Nat) (hp : p < n) (f : Nat → Nat → Bool) :
    ((pairSeq n).filter fun q => decide (q.1 = p) && f q.1 q.2) =
      ((List.range n).filter fun j => f p j).map fun j => (p, j) := by
  unfold pairSeq
  rw [List.filter_flatMap]
  have hblock : ∀ i, (((List.range n).map fun j => (i, j)).filter
      fun q => decide (q.1 = p) && f q.1 q.2) =
      if i = p then ((List.range n).filter fun j => f p j).map fun j => (p, j)
      else [] := by
    intro i
    rw [List.filter_map]
    by_cases hip : i = p
    · subst hip
      rw [if_pos rfl]
      congr 1
      apply List.filter_congr
      intro j _
      simp
    · rw [if_neg hip]
      have : (List.range n).filter
          ((fun q => decide (q.1 = p) && f q.1 q.2) ∘ fun j => (i, j)) = [] := by
        rw [List.filter_eq_nil_iff]
        intro j _
        simp [hip]
      rw [this, List.map_nil]

  simp only [hblock]
  have hfin := flatMap_single (List.range n) (List.nodup_range n) p
    (List.mem_range.mpr hp)
    (fun i => if i = p then
      ((List.range n).filter fun j => f p j).map fun j => (p, j) else [])
    (fun i _ hip => if_neg hip)
  rw [hfin]
  simp

theorem pairSeq_filter_snd (n p : Nat) (hp : p < n) (f : Nat → Nat → Bool) :
    (((pairSeq n).filter fun q => f q.1 q.2 && decide (q.2 = p)).map
      Prod.fst) = (List.range n).filter fun i => f i p := by
  unfold pairSeq
  rw [List.filter_flatMap, List.map_flatMap]
  have hblock : ∀ i, ((((List.range n).map fun j => (i, j)).filter
      fun q => f q.1 q.2 && decide (q.2 = p)).map Prod.fst) =
      if f i p then [i] else [] := by
    intro i
    rw [List.filter_map, List.map_map]
    have hin : (List.range n).filter
        ((fun q => f q.1 q.2 && decide (q.2 = p)) ∘ fun j => (i, j)) =
        if f i p then [p] else [] := by
      have := filter_and_eq_single (List.range n) (List.nodup_range n) p
        (List.mem_range.mpr hp) (fun j => f i j)
      simpa using this
    rw [hin]
    cases hfip : f i p <;> simp [hfip]
  simp only [Function.comp] at hblock ⊢
  simp only [hblock]
  exact flatMap_ite_filter (List.range n) (fun i => f i p)

theorem getD_irrel {α : Type} (l : List α) (p : Nat) (h : p < l.length)
    (d d' : α) : l.getD p d = l.getD p d' := by
  rw [List.getD_eq_getElem?_getD, List.getD_eq_getElem?_getD,
    List.getElem?_eq_getElem h]
  rfl

theorem exists_min_im (L : List Nat) (hne : L ≠ []) (f : Nat → Nat) :
    ∃ a, a ∈ L ∧ ∀ b ∈ L, f a ≤ f b := by
  induction L with
  | nil => exact absurd rfl hne
  | cons x t ih =>
    cases t with
    | nil => exact ⟨x, List.mem_cons_self _ _, by simp⟩
    | cons y s =>
      obtain ⟨a, ha, hmin⟩ := ih (by simp)
      by_cases h : f x ≤ f a
      · refine ⟨x, List.mem_cons_self _ _, fun b hb => ?_⟩
        rcases List.mem_cons.mp hb with rfl | hb
        · exact Nat.le_refl _
        · exact Nat.le_trans h (hmin b hb)
      · refine ⟨a, List.mem_cons_of_mem _ ha, fun b hb => ?_⟩
        rcases List.mem_cons.mp hb with rfl | hb
        · omega
        · exact hmin b hb

theorem countP_split (l : List Nat) (p q : Nat → Bool) :
    l.countP p = l.countP (fun a => p a && q a) +
      l.countP (fun a => p a && !q a) := by
  induction l with
  | nil => simp
  | cons a t ih =>
    rw [List.countP_cons, List.countP_cons, List.countP_cons]
    cases hp : p a <;> cases hq : q a <;> simp [hp, hq] <;> omega


theorem decFold_length (cnt : List Nat) (xs : List Nat) :
    (xs.foldl (fun c x => c.set x (c.getD x 0 - 1)) cnt).length =
      cnt.length := by
  induction xs generalizing cnt with
  | nil => rfl
  | cons x t ih => rw [List.foldl_cons, ih]; simp

theorem decFold_getD (cnt : List Nat) (xs : List Nat) (hnd : xs.Nodup)
    (p : Nat) (hp : p < cnt.length) :
    (xs.foldl (fun c x => c.set x (c.getD x 0 - 1)) cnt).getD p 0 =
      cnt.getD p 0 - (if p ∈ xs then 1 else 0) := by
  induction xs generalizing cnt with
  | nil => simp
  | cons x t ih =>
    rw [List.foldl_cons]
    have hlen : (cnt.set x (cnt.getD x 0 - 1)).length = cnt.length := by simp
    rw [ih (cnt.set x (cnt.getD x 0 - 1)) (List.nodup_cons.mp hnd).2 (by omega)]
    by_cases hxp : p = x
    · subst hxp
      rw [getD_set_self cnt p hp]
      have hnt : p ∉ t := (List.nodup_cons.mp hnd).1
      simp [hnt]
    · rw [getD_set_ne cnt x p (fun h => hxp h.symm)]
      congr 1
      simp [List.mem_cons, hxp]

theorem kahnStep_if (ref : List (List Nat))
    (st : List Nat × List Bool × List Nat) (i : Nat)
    (h1 : st.1.getD i 1 = 0) (h2 : st.2.1.getD i true = false) :
    kahnStep ref st i =
      ((ref.getD i []).foldl (fun c x => c.set x (c.getD x 0 - 1)) st.1,
        st.2.1.set i true, st.2.2 ++ [i]) := by
  unfold kahnStep
  rw [if_pos ⟨h1, by rw [h2]⟩]

theorem kahnStep_cases (ref : List (List Nat))
    (st : List Nat × List Bool × List Nat) (i : Nat) :
    kahnStep ref st i = st ∨
    (st.1.getD i 1 = 0 ∧ st.2.1.getD i true = false ∧
      kahnStep ref st i =
        ((ref.getD i []).foldl (fun c x => c.set x (c.getD x 0 - 1)) st.1,
          st.2.1.set i true, st.2.2 ++ [i])) := by
  by_cases h : st.1.getD i 1 = 0 ∧ st.2.1.getD i true = false
  · exact Or.inr ⟨h.1, h.2, kahnStep_if ref st i h.1 h.2⟩
  · left
    unfold kahnStep
    rw [if_neg]
    intro hc
    exact h ⟨hc.1, hc.2⟩

theorem kahnStep_inv (es : List Entry) (ref : List (List Nat))
    (href : ∀ i, i < es.length →
      ref.getD i [] = (List.range es.length).filter fun x => edgeB es x i)
    (st : List Nat × List Bool × List Nat) (hInv : KInv es st) (i : Nat)
    (hi : i < es.length) :
    KInv es (kahnStep ref st i) ∧
    ((kahnStep ref st i).2.2 = st.2.2 ∨
      (kahnStep ref st i).2.2 = st.2.2 ++ [i]) := by
  rcases kahnStep_cases ref st i with hid | ⟨h1, h2, heq⟩
  · rw [hid]
    exact ⟨hInv, Or.inl rfl⟩
  · rw [heq]
    obtain ⟨hc, hv, hbd, hnd, hvis, hcnt, htopo⟩ := hInv
    have hiord : i ∉ st.2.2 := by
      intro hmem
      rw [(hvis i hi).mpr hmem] at h2
      exact Bool.noConfusion h2
    have hdone : ∀ j, j < es.length → edgeB es i j = true → j ∈ st.2.2 := by
      intro j hj hE
      have := hcnt i hi
      rw [h1] at this
      have hnil := List.length_eq_zero.mp this.symm
      by_contra hjo
      have hjmem : j ∈ (List.range es.length).filter
          fun j => edgeB es i j && decide (j ∉ st.2.2) := by
        simp [List.mem_filter, List.mem_range, hj, hE, hjo]
      rw [hnil] at hjmem
      exact List.not_mem_nil j hjmem
    have hxs : ref.getD i [] =
        (List.range es.length).filter fun x => edgeB es x i := href i hi
    have hxsnd : (ref.getD i []).Nodup := by
      rw [hxs]
      exact (List.nodup_range es.length).filter _
    refine ⟨⟨?_, ?_, ?_, ?_, ?_, ?_, ?_⟩, Or.inr rfl⟩
    · rw [decFold_length]
      exact hc
    · simpa using hv
    · intro x hx
      rcases List.mem_append.mp hx with hx | hx
      · exact hbd x hx
      · rw [List.mem_singleton.mp hx]
        exact hi
    · simp [List.nodup_append, hnd, hiord]
    · intro x hx
      by_cases hxi : x = i
      · subst hxi
        rw [getD_set_self st.2.1 x (by omega)]
        simp
      · rw [getD_set_ne st.2.1 i x (fun h => hxi h.symm)]
        rw [hvis x hx]
        simp [List.mem_append, hxi]
    · intro x hx
      dsimp only
      have hlen1 : ((ref.getD i []).foldl
          (fun c x => c.set x (c.getD x 0 - 1)) st.1).length = es.length := by
        rw [decFold_length]
        exact hc
      rw [getD_irrel _ x (by omega) 1 0,
        decFold_getD st.1 (ref.getD i []) hxsnd x (by omega),
        getD_irrel st.1 x (by omega) 0 1, hcnt x hx]
      have hmemxs : (x ∈ ref.getD i []) ↔ (edgeB es x i = true) := by
        rw [hxs]
        simp [List.mem_filter, List.mem_range, hx]
      have hkey : ((List.range es.length).filter
            fun j => edgeB es x j && decide (j ∉ st.2.2)).length =
          ((List.range es.length).filter
            fun j => edgeB es x j && decide (j ∉ st.2.2 ++ [i])).length +
          (if edgeB es x i = true then 1 else 0) := by
        rw [← List.countP_eq_length_filter, ← List.countP_eq_length_filter]
        rw [countP_split (List.range es.length)
          (fun j => edgeB es x j && decide (j ∉ st.2.2))
          (fun j => decide (j ≠ i))]
        have hA : (List.range es.length).countP
            (fun a => (edgeB es x a && decide (a ∉ st.2.2)) &&
              decide (a ≠ i)) =
            (List.range es.length).countP
            (fun j => edgeB es x j && decide (j ∉ st.2.2 ++ [i])) := by
          apply List.countP_congr
          intro j hjr
          by_cases hji : j = i
          · subst hji
            simp [hiord, List.mem_append]
          · simp [hji, List.mem_append]
        have hB : (List.range es.length).countP
            (fun a => (edgeB es x a && decide (a ∉ st.2.2)) &&
              !decide (a ≠ i)) =
            (if edgeB es x i = true then 1 else 0) := by
          have hBc : (List.range es.length).countP
              (fun a => (edgeB es x a && decide (a ∉ st.2.2)) &&
                !decide (a ≠ i)) =
              (List.range es.length).countP
              (fun a => (edgeB es x a && decide (a ∉ st.2.2)) &&
                decide (a = i)) := by
            apply List.countP_congr
            intro j _
            by_cases hji : j = i <;> simp [hji]
          rw [hBc, List.countP_eq_length_filter,
            filter_and_eq_single (List.range es.length)
              (List.nodup_range es.length) i (List.mem_range.mpr hi)
              (fun a => edgeB es x a && decide (a ∉ st.2.2))]
          by_cases hExi : edgeB es x i = true
          · simp [hExi, hiord]
          · have : edgeB es x i = false := by
              cases h : edgeB es x i
              · rfl
              · exact absurd h hExi
            simp [this]
        rw [hA, hB]
      by_cases hExi : edgeB es x i = true
      · have hmem : x ∈ ref.getD i [] := hmemxs.mpr hExi
        have hk2 : ((List.range es.length).filter
              fun j => edgeB es x j && decide (j ∉ st.2.2)).length =
            ((List.range es.length).filter
              fun j => edgeB es x j && decide (j ∉ st.2.2 ++ [i])).length +
              1 := by
          rw [hkey]
          simp [hExi]
        rw [if_pos hmem]
        omega
      · have hf : edgeB es x i = false := by
          cases h : edgeB es x i
          · rfl
          · exact absurd h hExi
        have hnm : x ∉ ref.getD i [] := by
          intro hmem
          rw [hmemxs] at hmem
          rw [hmem] at hf
          exact Bool.noConfusion hf
        have hk2 : ((List.range es.length).filter
              fun j => edgeB es x j && decide (j ∉ st.2.2)).length =
            ((List.range es.length).filter
              fun j => edgeB es x j && decide (j ∉ st.2.2 ++ [i])).length := by
          rw [hkey]
          simp [hf]
        rw [if_neg hnm]
        omega
    · intro i0 hi0 j hj hE
      dsimp only at hi0 ⊢
      rcases List.mem_append.mp hi0 with hio | hio
      · obtain ⟨hjo, hidx⟩ := htopo i0 hio j hj hE
        refine ⟨List.mem_append.mpr (Or.inl hjo), ?_⟩
        rw [List.indexOf_append_of_mem hjo, List.indexOf_append_of_mem hio]
        exact hidx
      · rw [List.mem_singleton.mp hio] at hE ⊢
        have hjo := hdone j hj hE
        refine ⟨List.mem_append.mpr (Or.inl hjo), ?_⟩
        rw [List.indexOf_append_of_mem hjo,
          List.indexOf_append_of_not_mem hiord]
        have : st.2.2.indexOf j < st.2.2.length :=
          List.indexOf_lt_length.mpr hjo
        simp
        omega

theorem foldl_kahnStep_inv (es : List Entry) (ref : List (List Nat))
    (href : ∀ i, i < es.length →
      ref.getD i [] = (List.range es.length).filter fun x => edgeB es x i)
    (L : List Nat) (hL : ∀ x ∈ L, x < es.length)
    (st : List Nat × List Bool × List Nat) (hInv : KInv es st) :
    KInv es (L.foldl (kahnStep ref) st) := by
  induction L generalizing st with
  | nil => exact hInv
  | cons a t ih =>
    rw [List.foldl_cons]
    exact ih (fun x hx => hL x (List.mem_cons_of_mem _ hx))
      (kahnStep ref st a)
      (kahnStep_inv es ref href st hInv a (hL a (List.mem_cons_self _ _))).1

theorem kahnStep_len_mono (ref : List (List Nat))
    (st : List Nat × List Bool × List Nat) (i : Nat) :
    st.2.2.length ≤ (kahnStep ref st i).2.2.length := by
  rcases kahnStep_cases ref st i with h | ⟨_, _, h⟩ <;> rw [h] <;> simp

theorem foldl_kahnStep_len_mono (ref : List (List Nat)) (L : List Nat)
    (st : List Nat × List Bool × List Nat) :
    st.2.2.length ≤ (L.foldl (kahnStep ref) st).2.2.length := by
  induction L generalizing st with
  | nil => exact Nat.le_refl _
  | cons a t ih =>
    rw [List.foldl_cons]
    exact Nat.le_trans (kahnStep_len_mono ref st a) (ih (kahnStep ref st a))

theorem foldl_kahnStep_stuck (ref : List (List Nat)) (L : List Nat)
    (st : List Nat × List Bool × List Nat)
    (h : (L.foldl (kahnStep ref) st).2.2.length = st.2.2.length) :
    L.foldl (kahnStep ref) st = st := by
  induction L generalizing st with
  | nil => rfl
  | cons a t ih =>
    rw [List.foldl_cons] at h ⊢
    rcases kahnStep_cases ref st a with hid | ⟨_, _, happ⟩
    · rw [hid] at h ⊢
      exact ih st h
    · exfalso
      have h1 : (kahnStep ref st a).2.2.length = st.2.2.length + 1 := by
        rw [happ]
        simp
      have h2 := foldl_kahnStep_len_mono ref t (kahnStep ref st a)
      omega

theorem range_split (n i : Nat) (h : i < n) :
    List.range n = List.range i ++ i :: List.drop (i + 1) (List.range n) := by
  conv_lhs => rw [← List.take_append_drop i (List.range n)]
  congr 1
  · rw [List.take_range]
    congr 1
    omega
  · rw [← List.getElem_cons_drop (List.range n) i (by simpa using h)]
    simp

theorem kahnPass_progress (es : List Entry) (ref : List (List Nat))
    (st : List Nat × List Bool × List Nat) (i : Nat) (hi : i < es.length)
    (hcnt0 : st.1.getD i 1 = 0) (hvis0 : st.2.1.getD i true = false) :
    st.2.2.length < (kahnPass ref es.length st).2.2.length := by
  rcases Nat.lt_or_ge st.2.2.length (kahnPass ref es.length st).2.2.length
    with h | h
  · exact h
  · exfalso
    have hmono := foldl_kahnStep_len_mono ref (List.range es.length) st
    have heq : (kahnPass ref es.length st).2.2.length = st.2.2.length := by
      unfold kahnPass at h ⊢
      omega
    have hstuck := foldl_kahnStep_stuck ref (List.range es.length) st
      (by unfold kahnPass at heq; exact heq)
    have hsplit := range_split es.length i hi
    have hdecomp : List.foldl (kahnStep ref) st (List.range es.length) =
        List.foldl (kahnStep ref)
          (kahnStep ref (List.foldl (kahnStep ref) st (List.range i)) i)
          (List.drop (i + 1) (List.range es.length)) := by
      conv_lhs => rw [hsplit]
      rw [List.foldl_append, List.foldl_cons]
    have hlen1 := foldl_kahnStep_len_mono ref (List.range i) st
    have hlen2 := kahnStep_len_mono ref
      (List.foldl (kahnStep ref) st (List.range i)) i
    have hlen3 := foldl_kahnStep_len_mono ref
      (List.drop (i + 1) (List.range es.length))
      (kahnStep ref (List.foldl (kahnStep ref) st (List.range i)) i)
    rw [← hdecomp] at hlen3
    unfold kahnPass at heq
    have hmid : (List.foldl (kahnStep ref) st (List.range i)).2.2.length =
        st.2.2.length := by omega
    have hmideq := foldl_kahnStep_stuck ref (List.range i) st hmid
    rw [hmideq] at hlen2 hlen3
    have hkeq := kahnStep_if ref st i hcnt0 hvis0
    rw [hkeq] at hlen2 hlen3
    simp at hlen2 hlen3
    omega

theorem kahn_progress_of_rank (es : List Entry) (ref : List (List Nat))
    (hrank : ∃ rank : Nat → Nat, ∀ x y, x < es.length → y < es.length →
      edgeB es x y = true → rank y < rank x)
    (st : List Nat × List Bool × List Nat) (hInv : KInv es st)
    (hlt : st.2.2.length < es.length) :
    st.2.2.length < (kahnPass ref es.length st).2.2.length := by
  obtain ⟨rank, hr⟩ := hrank
  have hune : (List.range es.length).filter
      (fun x => decide (x ∉ st.2.2)) ≠ [] := by
    intro hnil
    have hsub : ∀ x ∈ List.range es.length, x ∈ st.2.2 := by
      intro x hx
      by_contra hxo
      have hmem : x ∈ (List.range es.length).filter
          (fun x => decide (x ∉ st.2.2)) := by
        simp [List.mem_filter, hx, hxo]
      rw [hnil] at hmem
      exact List.not_mem_nil x hmem
    have hsp : (List.range es.length).Subperm st.2.2 :=
      List.subperm_of_subset (List.nodup_range es.length) hsub
    have := hsp.length_le
    simp at this
    omega
  obtain ⟨a, ha, hmin⟩ := exists_min_im _ hune rank
  have ha' := List.mem_filter.mp ha
  have ha1 : a < es.length := List.mem_range.mp ha'.1
  have ha2 : a ∉ st.2.2 := by simpa using ha'.2
  have hcnt0 : st.1.getD a 1 = 0 := by
    rw [hInv.hcnt a ha1]
    have hnilf : (List.range es.length).filter
        (fun j => edgeB es a j && decide (j ∉ st.2.2)) = [] := by
      rw [List.filter_eq_nil_iff]
      intro j hj hcond
      rw [Bool.and_eq_true] at hcond
      have hju : j ∈ (List.range es.length).filter
          (fun x => decide (x ∉ st.2.2)) :=
        List.mem_filter.mpr ⟨hj, hcond.2⟩
      exact absurd (hr a j ha1 (List.mem_range.mp hj) hcond.1)
        (Nat.not_lt.mpr (hmin j hju))
    rw [hnilf]
    rfl
  have hvis0 : st.2.1.getD a true = false := by
    cases h : st.2.1.getD a true
    · rfl
    · exact absurd ((hInv.hvis a ha1).mp h) ha2
  exact kahnPass_progress es ref st a ha1 hcnt0 hvis0

theorem kahnLoopF_some (es : List Entry) (ref : List (List Nat))
    (href : ∀ i, i < es.length →
      ref.getD i [] = (List.range es.length).filter fun x => edgeB es x i)
    (hrank : ∃ rank : Nat → Nat, ∀ x y, x < es.length → y < es.length →
      edgeB es x y = true → rank y < rank x)
    (fuel : Nat) (st : List Nat × List Bool × List Nat) (hInv : KInv es st)
    (hfuel : es.length - st.2.2.length < fuel) :
    ∃ ord, kahnLoopF ref es.length fuel st = some ord ∧
      ord.Perm (List.range es.length) ∧
      ∀ i ∈ ord, ∀ j, j < es.length → edgeB es i j = true →
        j ∈ ord ∧ ord.indexOf j < ord.indexOf i := by
  induction fuel generalizing st with
  | zero => omega
  | succ f ih =>
    by_cases hdone : es.length ≤ st.2.2.length
    · simp only [kahnLoopF, if_pos hdone]
      have hsp : st.2.2.Subperm (List.range es.length) :=
        List.subperm_of_subset hInv.hnd
          (fun x hx => List.mem_range.mpr (hInv.hbd x hx))
      refine ⟨st.2.2, rfl, hsp.perm_of_length_le (by simpa using hdone),
        hInv.htopo⟩
    · simp only [kahnLoopF, if_neg hdone]
      have hInv' : KInv es (kahnPass ref es.length st) :=
        foldl_kahnStep_inv es ref href (List.range es.length)
          (fun x hx => List.mem_range.mp hx) st hInv
      have hprog := kahn_progress_of_rank es ref hrank st hInv (by omega)
      exact ih (kahnPass ref es.length st) hInv' (by omega)

/-- The graph built by the nested loops over the whole pair sequence:
in-degrees count outgoing detected references, reference lists collect
incoming ones. -/
theorem build_spec (es : List Entry) (hnd : (es.map Entry.Name).Nodup) :
    (buildLoop es (es.map Entry.Name) (pairSeq es.length)
      (List.replicate es.length 0,
        List.replicate es.length [])).1.length = es.length ∧
    (buildLoop es (es.map Entry.Name) (pairSeq es.length)
      (List.replicate es.length 0,
        List.replicate es.length [])).2.length = es.length ∧
    ∀ p, p < es.length →
      (buildLoop es (es.map Entry.Name) (pairSeq es.length)
        (List.replicate es.length 0, List.replicate es.length [])).1.getD p 1 =
        ((List.range es.length).filter fun j => edgeB es p j).length ∧
      (buildLoop es (es.map Entry.Name) (pairSeq es.length)
        (List.replicate es.length 0, List.replicate es.length [])).2.getD p
          [] = (List.range es.length).filter fun x => edgeB es x p := by
  obtain ⟨h1, h2, h3⟩ := buildLoop_char es hnd (pairSeq es.length)
    (pairSeq_mem es.length) (List.replicate es.length 0)
    (List.replicate es.length []) (by simp) (by simp)
  refine ⟨h1, h2, fun p hp => ?_⟩
  obtain ⟨ha, hb⟩ := h3 p hp
  constructor
  · rw [getD_irrel _ p (by omega) 1 0, ha, pairSeq_filter_fst es.length p hp
      (fun a b => edgeB es a b)]
    simp
  · rw [hb, pairSeq_filter_snd es.length p hp (fun a b => edgeB es a b)]
    simp

theorem map_getD_range (es : List Entry) :
    (List.range es.length).map (fun k => es.getD k default) = es := by
  apply List.ext_getElem
  · simp
  · intro i h1 h2
    simp only [List.getElem_map, List.getElem_range]
    exact List.getD_eq_getElem es default h2

/-- `adjustViewOrder` succeeds and topologically orders the suffix
whenever the suffix names are distinct and the detected reference
relation admits a rank function (no cycles). -/
theorem adjustViewOrder_correct (l : List Entry) (start : Nat)
    (hstart : start ≤ l.length)
    (hnd : ((l.drop start).map Entry.Name).Nodup)
    (hrank : ∃ rank : Nat → Nat, ∀ x y, x < (l.drop start).length →
      y < (l.drop start).length → edgeB (l.drop start) x y = true →
      rank y < rank x) :
    ∃ l2, adjustViewOrder l start = some l2 ∧
      l2.length = l.length ∧
      (∀ k, k < start → l2[k]? = l[k]?) ∧
      (l2.drop start).Perm (l.drop start) ∧
      (∀ a b ea eb, start ≤ a → start ≤ b → a < l2.length → b < l2.length →
        l2[a]? = some ea → l2[b]? = some eb → ea.Name ≠ eb.Name →
        isSubstr eb.Name ea.create = true → b < a) := by
  obtain ⟨hb1, hb2, hb3⟩ := build_spec (l.drop start) hnd
  have href : ∀ i, i < (l.drop start).length →
      (buildLoop (l.drop start) ((l.drop start).map Entry.Name)
        (pairSeq (l.drop start).length)
        (List.replicate (l.drop start).length 0,
          List.replicate (l.drop start).length [])).2.getD i [] =
      (List.range (l.drop start).length).filter
        fun x => edgeB (l.drop start) x i :=
    fun i hi => (hb3 i hi).2
  have hInv0 : KInv (l.drop start)
      ((buildLoop (l.drop start) ((l.drop start).map Entry.Name)
        (pairSeq (l.drop start).length)
        (List.replicate (l.drop start).length 0,
          List.replicate (l.drop start).length [])).1,
        List.replicate (l.drop start).length false, []) := by
    refine ⟨hb1, by simp, by simp, List.nodup_nil, ?_, ?_, by simp⟩
    · intro i hi
      constructor
      · intro h
        exfalso
        have : (List.replicate (l.drop start).length false).getD i true =
            false := by
          rw [List.getD_eq_getElem _ _ (by simpa using hi)]
          simp
        rw [this] at h
        exact Bool.noConfusion h
      · intro h
        exact absurd h (List.not_mem_nil i)
    · intro i hi
      have hfc : (List.range (l.drop start).length).filter
          (fun j => edgeB (l.drop start) i j && decide (j ∉ ([] : List Nat)))
          = (List.range (l.drop start).length).filter
            (fun j => edgeB (l.drop start) i j) := by
        apply List.filter_congr
        intro j _
        simp
      rw [hfc]
      exact (hb3 i hi).1
  obtain ⟨ord, heq, hperm, htopo⟩ := kahnLoopF_some (l.drop start) _ href
    hrank ((l.drop start).length + 1) _ hInv0 (by simp)
  have hordlen : ord.length = (l.drop start).length := by
    have := hperm.length_eq
    simpa using this
  have hordnd : ord.Nodup :=
    hperm.nodup_iff.mpr (List.nodup_range _)
  have hordmem : ∀ x ∈ ord, x < (l.drop start).length :=
    fun x hx => List.mem_range.mp (hperm.subset hx)
  have htakelen : (l.take start).length = start := by
    simp [hstart]
  have hdroplen : (l.drop start).length = l.length - start := by simp
  refine ⟨l.take start ++ ord.map fun k => (l.drop start).getD k default,
    ?_, ?_, ?_, ?_, ?_⟩
  · show (match kahnLoopF
        (buildLoop (l.drop start) ((l.drop start).map Entry.Name)
          (pairSeq (l.drop start).length)
          (List.replicate (l.drop start).length 0,
            List.replicate (l.drop start).length [])).2
        (l.drop start).length ((l.drop start).length + 1)
        ((buildLoop (l.drop start) ((l.drop start).map Entry.Name)
          (pairSeq (l.drop start).length)
          (List.replicate (l.drop start).length 0,
            List.replicate (l.drop start).length [])).1,
          List.replicate (l.drop start).length false, []) with
      | none => none
      | some ord => some (l.take start ++ ord.map fun k =>
          (l.drop start).getD k default)) = _
    rw [heq]
  · rw [List.length_append, htakelen, List.length_map]
    omega
  · intro k hk
    rw [List.getElem?_append_left (by omega), List.getElem?_take_of_lt hk]
  · have hdrop : (l.take start ++ ord.map fun k =>
        (l.drop start).getD k default).drop start =
        ord.map fun k => (l.drop start).getD k default := by
      have hdl := List.drop_left (l.take start)
        (ord.map fun k => (l.drop start).getD k default)
      rw [htakelen] at hdl
      exact hdl
    rw [hdrop]
    have := hperm.map (fun k => (l.drop start).getD k default)
    rw [map_getD_range (l.drop start)] at this
    exact this
  · intro a b ea eb ha hb hla hlb hgeta hgetb hname hsub
    rw [List.length_append, htakelen, List.length_map] at hla hlb
    have hax : a - start < ord.length := by omega
    have hbx : b - start < ord.length := by omega
    obtain ⟨xa, hxa⟩ : ∃ x, ord[a - start]? = some x :=
      ⟨_, List.getElem?_eq_getElem hax⟩
    obtain ⟨xb, hxb⟩ : ∃ x, ord[b - start]? = some x :=
      ⟨_, List.getElem?_eq_getElem hbx⟩
    have hxamem : xa ∈ ord := by
      have := List.getElem?_eq_getElem hax
      rw [hxa] at this
      rw [Option.some.inj this]
      exact List.getElem_mem hax
    have hxbmem : xb ∈ ord := by
      have := List.getElem?_eq_getElem hbx
      rw [hxb] at this
      rw [Option.some.inj this]
      exact List.getElem_mem hbx
    have hxalt : xa < (l.drop start).length := hordmem xa hxamem
    have hxblt : xb < (l.drop start).length := hordmem xb hxbmem
    have hgeta' : (l.take start ++ ord.map fun k =>
        (l.drop start).getD k default)[a]? =
        some ((l.drop start).getD xa default) := by
      rw [List.getElem?_append_right (by omega), htakelen,
        List.getElem?_map, hxa]
      rfl
    have hgetb' : (l.take start ++ ord.map fun k =>
        (l.drop start).getD k default)[b]? =
        some ((l.drop start).getD xb default) := by
      rw [List.getElem?_append_right (by omega), htakelen,
        List.getElem?_map, hxb]
      rfl
    rw [hgeta'] at hgeta
    rw [hgetb'] at hgetb
    have heaval : ea = (l.drop start).get ⟨xa, hxalt⟩ := by
      simp only [List.get_eq_getElem]
      have := List.getD_eq_getElem (l.drop start) default hxalt
      rw [this] at hgeta
      exact (Option.some.inj hgeta).symm
    have hebval : eb = (l.drop start).get ⟨xb, hxblt⟩ := by
      simp only [List.get_eq_getElem]
      have := List.getD_eq_getElem (l.drop start) default hxblt
      rw [this] at hgetb
      exact (Option.some.inj hgetb).symm
    have hxne : xa ≠ xb := by
      intro h
      apply hname
      subst h
      rw [heaval, hebval]
    have heaval2 : ea = (l.drop start)[xa] := by
      rw [heaval]
      simp only [List.get_eq_getElem]
    have hebval2 : eb = (l.drop start)[xb] := by
      rw [hebval]
      simp only [List.get_eq_getElem]
    have hedge : edgeB (l.drop start) xa xb = true := by
      unfold edgeB
      rw [List.getElem?_eq_getElem hxalt, List.getElem?_eq_getElem hxblt]
      rw [← heaval2, ← hebval2]
      simp [hxne, hsub]
    obtain ⟨hmem, hidx⟩ := htopo xa hxamem xb hxblt hedge
    have hia : ord.indexOf xa = a - start := by
      have h2 := List.indexOf_getElem hordnd (a - start) hax
      have h3 := List.getElem?_eq_getElem hax
      rw [hxa] at h3
      rw [Option.some.inj h3]
      exact h2
    have hib : ord.indexOf xb = b - start := by
      have h2 := List.indexOf_getElem hordnd (b - start) hbx
      have h3 := List.getElem?_eq_getElem hbx
      rw [hxb] at h3
      rw [Option.some.inj h3]
      exact h2
    rw [hia, hib] at hidx
    omega

theorem partitionViews_start_le (l : List Entry) :
    (partitionViews l).2 ≤ l.length := by
  match l with
  | [] => decide
  | [e] =>
    show (partitionViewsF 5 [e] 0 ((1 : Int) - 1)).2 ≤ 1
    norm_num [partitionViewsF]
  | a :: b :: t =>
    exact (partitionViews_correct (a :: b :: t) (by simp)).1

theorem kahnLoopF_fixed (ref : List (List Nat)) (n : Nat)
    (st : List Nat × List Bool × List Nat)
    (hlt : st.2.2.length < n) (hfix : kahnPass ref n st = st) :
    ∀ fuel, kahnLoopF ref n fuel st = none := by
  intro fuel
  induction fuel with
  | zero => rfl
  | succ f ih =>
    simp only [kahnLoopF, if_neg (by omega : ¬ n ≤ st.2.2.length)]
    rw [hfix]
    exact ih

/-- C2: with pairwise-distinct table names and an acyclic detected
view-reference graph (the substring relation restricted to the views,
witnessed by a rank function on the view names; references involving
plain tables are unconstrained), the reorder performed before emission
succeeds and emits every non-view before every view, and every
referenced view before the view whose creation text mentions it. -/
theorem reorderTables_topo (l : List Entry)
    (hnodup : (l.map Entry.Name).Nodup)
    (hrank : ∃ rank : String → Nat, ∀ e ∈ l, ∀ f ∈ l,
      e.Kind = SystemViewRel → f.Kind = SystemViewRel →
      e.Name ≠ f.Name → isSubstr f.Name e.create = true →
      rank f.Name < rank e.Name) :
    ∃ l2, reorderTables l = some l2 ∧ l2.Perm l ∧
      (∀ i j (hi : i < l2.length) (hj : j < l2.length),
        (l2.get ⟨i, hi⟩).Kind ≠ SystemViewRel →
        (l2.get ⟨j, hj⟩).Kind = SystemViewRel → i < j) ∧
      (∀ i j (hi : i < l2.length) (hj : j < l2.length),
        (l2.get ⟨i, hi⟩).Kind = SystemViewRel →
        (l2.get ⟨j, hj⟩).Kind = SystemViewRel →
        (l2.get ⟨i, hi⟩).Name ≠ (l2.get ⟨j, hj⟩).Name →
        isSubstr (l2.get ⟨j, hj⟩).Name (l2.get ⟨i, hi⟩).create = true →
        j < i) := by
  have hperm1 : (partitionViews l).1.Perm l := partitionViews_perm l
  have hlen1 : (partitionViews l).1.length = l.length := hperm1.length_eq
  have hstart : (partitionViews l).2 ≤ (partitionViews l).1.length := by
    rw [hlen1]
    exact partitionViews_start_le l
  have hnd1 : ((partitionViews l).1.map Entry.Name).Nodup :=
    (hperm1.map Entry.Name).nodup_iff.mpr hnodup
  have hnds : (((partitionViews l).1.drop (partitionViews l).2).map
      Entry.Name).Nodup := by
    rw [List.map_drop]
    exact List.Nodup.sublist (List.drop_sublist _ _) hnd1
  obtain ⟨rank, hr⟩ := hrank
  have hrank2 : ∃ rk : Nat → Nat, ∀ x y,
      x < ((partitionViews l).1.drop (partitionViews l).2).length →
      y < ((partitionViews l).1.drop (partitionViews l).2).length →
      edgeB ((partitionViews l).1.drop (partitionViews l).2) x y = true →
      rk y < rk x := by
    refine ⟨fun k => rank
      (nameAt ((partitionViews l).1.drop (partitionViews l).2) k), ?_⟩
    intro x y hx hy hE
    have hex := List.getElem?_eq_getElem hx
    have hey := List.getElem?_eq_getElem hy
    unfold edgeB at hE
    rw [hex, hey, Bool.and_eq_true] at hE
    have hxy : x ≠ y := by simpa using hE.1
    have hmemx : ((partitionViews l).1.drop (partitionViews l).2).get
        ⟨x, hx⟩ ∈ l :=
      hperm1.subset (List.drop_subset _ _ (List.get_mem _ x hx))
    have hmemy : ((partitionViews l).1.drop (partitionViews l).2).get
        ⟨y, hy⟩ ∈ l :=
      hperm1.subset (List.drop_subset _ _ (List.get_mem _ y hy))
    have hx2 : x < (((partitionViews l).1.drop
        (partitionViews l).2).map Entry.Name).length := by
      simpa using hx
    have hy2 : y < (((partitionViews l).1.drop
        (partitionViews l).2).map Entry.Name).length := by
      simpa using hy
    have hnames : (((partitionViews l).1.drop (partitionViews l).2).get
        ⟨x, hx⟩).Name ≠ (((partitionViews l).1.drop
        (partitionViews l).2).get ⟨y, hy⟩).Name := by
      intro heqn
      apply hxy
      have hia := List.indexOf_getElem hnds x hx2
      have hib := List.indexOf_getElem hnds y hy2
      have hmapeq : ((((partitionViews l).1.drop
          (partitionViews l).2).map Entry.Name).get ⟨x, hx2⟩) =
          ((((partitionViews l).1.drop
          (partitionViews l).2).map Entry.Name).get ⟨y, hy2⟩) := by
        simp only [List.get_eq_getElem, List.getElem_map]
        simpa [List.get_eq_getElem] using heqn
      simp only [List.get_eq_getElem] at hmapeq
      rw [hmapeq] at hia
      omega
    have hnx : nameAt ((partitionViews l).1.drop (partitionViews l).2) x =
        (((partitionViews l).1.drop (partitionViews l).2).get ⟨x, hx⟩).Name
        := by
      simp [nameAt, List.getElem?_eq_getElem hx]
    have hny : nameAt ((partitionViews l).1.drop (partitionViews l).2) y =
        (((partitionViews l).1.drop (partitionViews l).2).get ⟨y, hy⟩).Name
        := by
      simp [nameAt, List.getElem?_eq_getElem hy]
    have hdl : ((partitionViews l).1.drop (partitionViews l).2).length =
        l.length - (partitionViews l).2 := by
      simp [List.length_drop, hlen1]
    have hc : 2 ≤ l.length := by
      by_contra hc1
      push_neg at hc1
      exact hxy (by omega)
    obtain ⟨hsle, hpre1, hsuf1⟩ := partitionViews_correct l hc
    have hkx : (((partitionViews l).1.drop (partitionViews l).2).get
        ⟨x, hx⟩).Kind = SystemViewRel := by
      obtain ⟨e, hpe, hke⟩ := hsuf1 ((partitionViews l).2 + x) (by omega)
        (by omega)
      have hq : (partitionViews l).1[(partitionViews l).2 + x]? =
          some (((partitionViews l).1.drop (partitionViews l).2).get
            ⟨x, hx⟩) := by
        rw [List.getElem?_eq_getElem (by omega)]
        congr 1
        simp only [List.get_eq_getElem]
        rw [List.getElem_drop]
      rw [hq] at hpe
      rw [Option.some.inj hpe]
      exact hke
    have hky : (((partitionViews l).1.drop (partitionViews l).2).get
        ⟨y, hy⟩).Kind = SystemViewRel := by
      obtain ⟨e, hpe, hke⟩ := hsuf1 ((partitionViews l).2 + y) (by omega)
        (by omega)
      have hq : (partitionViews l).1[(partitionViews l).2 + y]? =
          some (((partitionViews l).1.drop (partitionViews l).2).get
            ⟨y, hy⟩) := by
        rw [List.getElem?_eq_getElem (by omega)]
        congr 1
        simp only [List.get_eq_getElem]
        rw [List.getElem_drop]
      rw [hq] at hpe
      rw [Option.some.inj hpe]
      exact hke
    simp only [hnx, hny]
    exact hr _ hmemx _ hmemy hkx hky hnames (by
      simpa using hE.2)
  obtain ⟨l2, heq, hlen2, hpre2, hdperm, htopo2⟩ :=
    adjustViewOrder_correct (partitionViews l).1 (partitionViews l).2
      hstart hnds hrank2
  have hl2len : l2.length = l.length := by rw [hlen2, hlen1]
  have hl2perm : l2.Perm l := by
    have htk : l2.take (partitionViews l).2 =
        (partitionViews l).1.take (partitionViews l).2 := by
      apply List.ext_getElem?
      intro k
      by_cases hk : k < (partitionViews l).2
      · rw [List.getElem?_take_of_lt hk, List.getElem?_take_of_lt hk,
          hpre2 k hk]
      · rw [List.getElem?_eq_none (by simp [List.length_take]; omega),
          List.getElem?_eq_none (by simp [List.length_take]; omega)]
    have h1 : (l2.take (partitionViews l).2 ++
        l2.drop (partitionViews l).2).Perm
        ((partitionViews l).1.take (partitionViews l).2 ++
          (partitionViews l).1.drop (partitionViews l).2) := by
      rw [htk]
      exact List.Perm.append_left _ hdperm
    have h2 : ((partitionViews l).1.take (partitionViews l).2 ++
        (partitionViews l).1.drop (partitionViews l).2).Perm l := by
      rw [List.take_append_drop]
      exact hperm1
    have h0 : l2.Perm (l2.take (partitionViews l).2 ++
        l2.drop (partitionViews l).2) := by
      rw [List.take_append_drop]
    exact (h0.trans h1).trans h2
  have hq2 : ∀ k (hk : k < l2.length), l2[k]? = some (l2.get ⟨k, hk⟩) := by
    intro k hk
    simp [List.get_eq_getElem, List.getElem?_eq_getElem hk]
  have hsufview : 2 ≤ l.length → ∀ k, ∀ hk : k < l2.length,
      (partitionViews l).2 ≤ k →
      (l2.get ⟨k, hk⟩).Kind = SystemViewRel := by
    intro hc k hk hkge
    obtain ⟨hsle, hpre1, hsuf1⟩ := partitionViews_correct l hc
    have hkd : k - (partitionViews l).2 <
        (l2.drop (partitionViews l).2).length := by
      simp [List.length_drop]
      omega
    have hgd : (l2.drop (partitionViews l).2).get
        ⟨k - (partitionViews l).2, hkd⟩ = l2.get ⟨k, hk⟩ := by
      simp only [List.get_eq_getElem]
      rw [List.getElem_drop]
      congr 1
      omega
    have hmem : l2.get ⟨k, hk⟩ ∈
        (partitionViews l).1.drop (partitionViews l).2 := by
      rw [← hgd]
      exact hdperm.subset (List.get_mem _ _ _)
    obtain ⟨k2, hk2, hval⟩ := List.getElem_of_mem hmem
    have hdl : ((partitionViews l).1.drop (partitionViews l).2).length =
        l.length - (partitionViews l).2 := by
      simp [List.length_drop, hlen1]
    obtain ⟨e, hpe, hke⟩ := hsuf1 ((partitionViews l).2 + k2) (by omega)
      (by omega)
    have hq : (partitionViews l).1[(partitionViews l).2 + k2]? =
        some (l2.get ⟨k, hk⟩) := by
      rw [List.getElem?_eq_getElem (by omega)]
      congr 1
      rw [← hval, List.getElem_drop]
    rw [hq] at hpe
    rw [Option.some.inj hpe]
    exact hke
  have hviewge : 2 ≤ l.length → ∀ k, ∀ hk : k < l2.length,
      (l2.get ⟨k, hk⟩).Kind = SystemViewRel → (partitionViews l).2 ≤ k := by
    intro hc k hk hkv
    by_contra hklt
    push_neg at hklt
    obtain ⟨hsle, hpre1, hsuf1⟩ := partitionViews_correct l hc
    obtain ⟨e, hpe, hke⟩ := hpre1 k hklt
    have h1 : l2[k]? = some e := by
      rw [hpre2 k hklt]
      exact hpe
    rw [hq2 k hk] at h1
    rw [Option.some.inj h1] at hkv
    exact hke hkv
  refine ⟨l2, heq, hl2perm, ?_, ?_⟩
  · intro i j hi hj hKi hKj
    by_cases hc : 2 ≤ l.length
    · have hjge : (partitionViews l).2 ≤ j := hviewge hc j hj hKj
      have hilt : i < (partitionViews l).2 := by
        by_contra hige
        push_neg at hige
        exact hKi (hsufview hc i hi hige)
      omega
    · have hij : i = j := by omega
      subst hij
      exact absurd hKj hKi
  · intro i j hi hj hKi hKj hname hsub
    by_cases hc : 2 ≤ l.length
    · exact htopo2 i j (l2.get ⟨i, hi⟩) (l2.get ⟨j, hj⟩)
        (hviewge hc i hi hKi) (hviewge hc j hj hKj) hi hj
        (hq2 i hi) (hq2 j hj) hname hsub
    · have hij : i = j := by omega
      subst hij
      exact absurd rfl hname

/-- C6 counterexample: the partition is not stable on the non-view
entries.  On the input v1 (a view), a, b (two plain tables, a listed
before b) the two-pointer loop swaps positions 0 and 2, so the
partitioned prefix lists b before a. -/
theorem partition_unstable :
    (partitionViews [(⟨"v1", "v", "x"⟩ : Entry), ⟨"a", "r", ""⟩,
        ⟨"b", "r", ""⟩]).1 =
      [⟨"b", "r", ""⟩, ⟨"a", "r", ""⟩, ⟨"v1", "v", "x"⟩] ∧
    (⟨"a", "r", ""⟩ : Entry).Kind ≠ SystemViewRel ∧
    (⟨"b", "r", ""⟩ : Entry).Kind ≠ SystemViewRel := by
  decide

/-- C6 amended: for inputs with at least two entries the partition is a
permutation of the input that puts exactly the non-views before the
returned boundary and exactly the views after it, but it need not keep
the relative order of the non-view entries. -/
theorem partitionViews_spec (l : List Entry) (h2 : 2 ≤ l.length) :
    (partitionViews l).1.Perm l ∧
    (∀ k < (partitionViews l).2,
      ∃ e, (partitionViews l).1[k]? = some e ∧ e.Kind ≠ SystemViewRel) ∧
    (∀ k, (partitionViews l).2 ≤ k → k < l.length →
      ∃ e, (partitionViews l).1[k]? = some e ∧ e.Kind = SystemViewRel) :=
  ⟨partitionViews_perm l, (partitionViews_correct l h2).2.1,
    (partitionViews_correct l h2).2.2⟩

/-- Witness: the partition specification evaluated on a concrete
two-entry list. -/
theorem partitionViews_spec_witness :
    2 ≤ ([(⟨"t1", "r", ""⟩ : Entry), ⟨"w1", "v", "q"⟩] : List Entry).length ∧
    ((partitionViews [(⟨"t1", "r", ""⟩ : Entry), ⟨"w1", "v", "q"⟩]).1.Perm
        [(⟨"t1", "r", ""⟩ : Entry), ⟨"w1", "v", "q"⟩] ∧
      (∀ k < (partitionViews [(⟨"t1", "r", ""⟩ : Entry),
          ⟨"w1", "v", "q"⟩]).2,
        ∃ e, (partitionViews [(⟨"t1", "r", ""⟩ : Entry),
          ⟨"w1", "v", "q"⟩]).1[k]? = some e ∧ e.Kind ≠ SystemViewRel) ∧
      (∀ k, (partitionViews [(⟨"t1", "r", ""⟩ : Entry),
          ⟨"w1", "v", "q"⟩]).2 ≤ k →
        k < ([(⟨"t1", "r", ""⟩ : Entry), ⟨"w1", "v", "q"⟩] :
          List Entry).length →
        ∃ e, (partitionViews [(⟨"t1", "r", ""⟩ : Entry),
          ⟨"w1", "v", "q"⟩]).1[k]? = some e ∧ e.Kind = SystemViewRel)) :=
  ⟨by decide, partitionViews_spec _ (by decide)⟩


/-- C5 counterexample: on two mutually-referencing views the reorder
step produces no output at all (the model returns `none` because the
outer scan loop never exits), rather than a truncated order. -/
theorem reorder_cycle_no_output : reorderTables cycleEntries = none := by
  decide

/-- C5 amended: on the two-view reference cycle the zero-in-degree scan
diverges: its state is a fixed point of a full pass while fewer than
all views are placed, so the outer loop yields nothing at EVERY fuel
(`none` models the infinite `for order < len(viewName)` loop). -/
theorem adjustViewOrder_cycle_diverges :
    ∀ fuel, kahnLoopF
      (buildLoop cycleEntries (cycleEntries.map Entry.Name) (pairSeq 2)
        (List.replicate 2 0, List.replicate 2 [])).2 2 fuel
      ((buildLoop cycleEntries (cycleEntries.map Entry.Name) (pairSeq 2)
        (List.replicate 2 0, List.replicate 2 [])).1,
        List.replicate 2 false, []) = none :=
  kahnLoopF_fixed _ 2 _ (by decide) (by decide)



/-- Witness: the topological-order theorem evaluated on `topoEntries`,
with both hypotheses discharged concretely. -/
theorem reorderTables_topo_witness :
    ((topoEntries.map Entry.Name).Nodup) ∧
    (∃ rank : String → Nat, ∀ e ∈ topoEntries, ∀ f ∈ topoEntries,
      e.Kind = SystemViewRel → f.Kind = SystemViewRel →
      e.Name ≠ f.Name → isSubstr f.Name e.create = true →
      rank f.Name < rank e.Name) ∧
    (∃ l2, reorderTables topoEntries = some l2 ∧ l2.Perm topoEntries ∧
      (∀ i j (hi : i < l2.length) (hj : j < l2.length),
        (l2.get ⟨i, hi⟩).Kind ≠ SystemViewRel →
        (l2.get ⟨j, hj⟩).Kind = SystemViewRel → i < j) ∧
      (∀ i j (hi : i < l2.length) (hj : j < l2.length),
        (l2.get ⟨i, hi⟩).Kind = SystemViewRel →
        (l2.get ⟨j, hj⟩).Kind = SystemViewRel →
        (l2.get ⟨i, hi⟩).Name ≠ (l2.get ⟨j, hj⟩).Name →
        isSubstr (l2.get ⟨j, hj⟩).Name (l2.get ⟨i, hi⟩).create = true →
        j < i)) :=
  ⟨by decide, ⟨topoRank, by decide⟩,
    reorderTables_topo topoEntries (by decide) ⟨topoRank, by decide⟩⟩
